import Mathlib

/-!
# Async task composition (src/Async/Async.h)

A shallow embedding of the task engine of `foo::async`.

Objects live in a heap indexed by allocation order (`new` returns the next
index).  Qt signal/slot connections are kept in two ordered tables, one for
`AbstractTask::finished(bool)` and one for `QFutureWatcher::finished()`;
emitting a signal runs the slots connected to the sender in the order in
which `connect` was called, synchronously (all tasks are created on one
owner thread, so every connection is a direct one).  `deleteLater()` is a
deferred request: it is recorded in the log, the destruction itself happens
later in the event loop and is not part of a dispatch.

The work callable of a leaf task is represented by the value it returns;
the environment decides only when a submitted work item becomes ready
(`deliver`).  Calls between slots are mutually recursive, the functions take
a call-depth budget (`fuel`).
-/

namespace Async

/-- Modelled from the spec: the Result type `Expected<T, E>` of `Expected.h`,
which is not among the sources: a tagged success/failure value with
`isValid()`, `value()` and `error()`. -/
inductive Expected (T E : Type) where
  | value (v : T)
  | error (e : E)
  deriving DecidableEq, Repr

/-- The `isValid()` accessor of `Expected`. -/
def Expected.isValid {T E : Type} : Expected T E → Bool
  | .value _ => true
  | .error _ => false

/-- A callback stored in `std::function`: the default no-op lambda of the
constructor, or a callable registered by the caller (named by a label). -/
inductive Handler where
  | noop
  | user (label : Nat)
  deriving DecidableEq, Repr

/-- State of the `QFutureWatcher` member of a leaf task. -/
inductive Watcher where
  | idle
  | running
  | finished
  deriving DecidableEq, Repr

/-- Fields of `detail::CompositeTask`; `isFifo` records that the dynamic type
is the subclass `detail::FifoTask`. -/
structure CompositeTask where
  isFifo : Bool
  mTasks : List Nat
  mFinishedCount : Nat := 0
  mAllSucceeded : Bool := true
  deriving DecidableEq, Repr

/-- A heap object: one of the concrete subclasses of `AbstractTask`. -/
inductive Obj where
  /-- Generic `AsyncTask<ResultType, TaskType>`; the callable returns `mTask`. -/
  | plainTask (mTask : Int) (mWatcher : Watcher)
  /-- The `AsyncTask` specialisation for `Expected<T, E>`. -/
  | resultTask (mTask : Expected Int Int) (mSuccessCallback mFailureCallback : Handler)
      (mWatcher : Watcher)
  /-- The classes `CompositeTask` and `FifoTask`. -/
  | composite (c : CompositeTask)
  deriving DecidableEq, Repr

/-- Slots connected to `AbstractTask::finished(bool)`. -/
inductive FSlot where
  /-- The lambda `[this](bool success)` of the `CompositeTask` constructor. -/
  | counter (self : Nat)
  /-- The slot `&AbstractTask::finishWith` with receiver `self`. -/
  | finishWith (self : Nat)
  /-- The lambda `[this, next_task](bool success)` of the `FifoTask` constructor. -/
  | startNext (self next_task : Nat)
  deriving DecidableEq, Repr

/-- Slots connected to `QFutureWatcher::finished()` of a leaf task. -/
inductive WSlot where
  /-- The slot `&AsyncTask::onFinished`. -/
  | onFinished (self : Nat)
  /-- The slot `&AsyncTask::deleteLater`. -/
  | deleteLater (self : Nat)
  /-- A callable given to `onDone` of the generic `AsyncTask`; `withResult`
  selects the overload that passes `mWatcher.result()`. -/
  | callback (self : Nat) (callback : Handler) (withResult : Bool)
  deriving DecidableEq, Repr

/-- Observable events, in the order in which they happen. -/
inductive Ev where
  /-- The call `mWatcher.setFuture(mTask())`: the work is submitted. -/
  | submitted (task : Nat)
  /-- The call `mSuccessCallback(result.value())`. -/
  | successCallback (task : Nat) (h : Handler) (v : Int)
  /-- The call `mFailureCallback(result.error())`. -/
  | failureCallback (task : Nat) (h : Handler) (e : Int)
  /-- A callable registered with `onDone` on a generic task is run. -/
  | doneCallback (task : Nat) (h : Handler) (arg : Option Int)
  /-- The statement `emit finished(success)` of `task`. -/
  | finished (task : Nat) (success : Bool)
  /-- The call `deleteLater()` on `task`. -/
  | deleteLater (task : Nat)
  deriving DecidableEq, Repr

/-- Ways in which a run leaves the defined behaviour of the program. -/
inductive Fault where
  /-- The call-depth budget of the model is used up. -/
  | outOfFuel
  /-- The call `mTasks.first()` on an empty vector, by task `task`. -/
  | firstOfEmpty (task : Nat)
  /-- A pointer that does not name an object of the expected class. -/
  | badPointer (task : Nat)
  /-- The environment reports a work item ready that is not in flight. -/
  | notPending (task : Nat)
  deriving DecidableEq, Repr

/-- The heap, the connection tables, the event log and the fault flag. -/
structure State where
  objs : List Obj := []
  fconns : List (Nat × FSlot) := []
  wconns : List (Nat × WSlot) := []
  log : List Ev := []
  fault : Option Fault := none
  deriving DecidableEq, Repr

/-- Appends an event to the log. -/
def State.emitEv (st : State) (e : Ev) : State :=
  { st with log := st.log ++ [e] }

/-- Stops the run with a fault. -/
def State.fail (st : State) (f : Fault) : State :=
  { st with fault := some f }

/-- Overwrites the object at `task`. -/
def State.setObj (st : State) (task : Nat) (o : Obj) : State :=
  { st with objs := st.objs.set task o }

/-- Slots connected to signal sender `sender`, in connection order. -/
def slotsOf {α : Type} (conns : List (Nat × α)) (sender : Nat) : List α :=
  conns.filterMap (fun c => if c.1 = sender then some c.2 else none)

/-- Runs `f` on every element of `xs` in order, threading the state. -/
def forEach {α : Type} (xs : List α) (f : α → State → State) (st : State) : State :=
  xs.foldl (fun s x => f x s) st

mutual

/-- The statement `emit finished(success)` in `task`: the connected slots run in
connection order. -/
def emitFinished : Nat → Nat → Bool → State → State
  | 0, _, _, st => st.fail .outOfFuel
  | fuel + 1, task, success, st =>
    if st.fault.isSome then st else
    let st := st.emitEv (.finished task success)
    forEach (slotsOf st.fconns task) (fun s => runFSlot fuel s success) st

/-- The slot `AbstractTask::finishWith(bool result)`. -/
def finishWith : Nat → Nat → Bool → State → State
  | 0, _, _, st => st.fail .outOfFuel
  | fuel + 1, self, result, st =>
    if st.fault.isSome then st else
    let st := emitFinished fuel self result st
    if st.fault.isSome then st else
    st.emitEv (.deleteLater self)

/-- Invokes one slot connected to `finished(bool)`. -/
def runFSlot : Nat → FSlot → Bool → State → State
  | 0, _, _, st => st.fail .outOfFuel
  | fuel + 1, slot, success, st =>
    if st.fault.isSome then st else
    match slot with
    | .counter self =>
      match st.objs[self]? with
      | some (.composite c) =>
        let c := { c with mAllSucceeded := c.mAllSucceeded && success }
        let c := { c with mFinishedCount := c.mFinishedCount + 1 }
        let st := st.setObj self (.composite c)
        if c.mFinishedCount ≥ c.mTasks.length then
          finishWith fuel self c.mAllSucceeded st
        else st
      | _ => st.fail (.badPointer self)
    | .finishWith self => finishWith fuel self success st
    | .startNext self next_task =>
      if !success then
        finishWith fuel self false st
      else
        start fuel next_task st

/-- The virtual call `task->start()`. -/
def start : Nat → Nat → State → State
  | 0, _, st => st.fail .outOfFuel
  | fuel + 1, task, st =>
    if st.fault.isSome then st else
    match st.objs[task]? with
    | some (.plainTask v _) =>
      let st := { st with wconns := st.wconns ++ [(task, WSlot.deleteLater task)] }
      (st.setObj task (.plainTask v .running)).emitEv (.submitted task)
    | some (.resultTask r s f _) =>
      let st := { st with wconns := st.wconns ++
        [(task, WSlot.onFinished task), (task, WSlot.deleteLater task)] }
      (st.setObj task (.resultTask r s f .running)).emitEv (.submitted task)
    | some (.composite c) =>
      if c.isFifo then
        let st := if c.mTasks.isEmpty then finishWith fuel task true st else st
        if st.fault.isSome then st else
        match c.mTasks.head? with
        | none => st.fail (.firstOfEmpty task)
        | some first => start fuel first st
      else
        forEach c.mTasks (fun child => start fuel child) st
    | none => st.fail (.badPointer task)

end

/-- The slot `AsyncTask<Expected>::onFinished()`. -/
def onFinished (fuel : Nat) (self : Nat) (st : State) : State :=
  if st.fault.isSome then st else
  match st.objs[self]? with
  | some (.resultTask result mSuccessCallback mFailureCallback _) =>
    let st := match result with
      | .value v => st.emitEv (.successCallback self mSuccessCallback v)
      | .error e => st.emitEv (.failureCallback self mFailureCallback e)
    emitFinished fuel self result.isValid st
  | _ => st.fail (.badPointer self)

/-- Invokes one slot connected to the watcher of a leaf task. -/
def runWSlot (fuel : Nat) (slot : WSlot) (st : State) : State :=
  if st.fault.isSome then st else
  match slot with
  | .onFinished self => onFinished fuel self st
  | .deleteLater self => st.emitEv (.deleteLater self)
  | .callback self callback withResult =>
    match st.objs[self]? with
    | some (.plainTask v _) =>
      st.emitEv (.doneCallback self callback (if withResult then some v else none))
    | _ => st.fail (.badPointer self)

/-- The environment step: the work item submitted by leaf `task` is ready, its
watcher raises `finished()` on the owner thread. -/
def deliver (fuel : Nat) (task : Nat) (st : State) : State :=
  if st.fault.isSome then st else
  match st.objs[task]? with
  | some (.plainTask v .running) =>
    let st := st.setObj task (.plainTask v .finished)
    forEach (slotsOf st.wconns task) (fun s => runWSlot fuel s) st
  | some (.resultTask r s f .running) =>
    let st := st.setObj task (.resultTask r s f .finished)
    forEach (slotsOf st.wconns task) (fun s => runWSlot fuel s) st
  | _ => st.fail (.notPending task)

/-- Delivers the completions of the leaves `order`, one after the other. -/
def deliverAll (fuel : Nat) (order : List Nat) (st : State) : State :=
  forEach order (fun task => deliver fuel task) st

/-- The expression `new T{...}`: the object gets the next free address. -/
def State.alloc (st : State) (o : Obj) : Nat × State :=
  (st.objs.length, { st with objs := st.objs ++ [o] })

/-- The call `connect(sender, &AbstractTask::finished, ...)`. -/
def State.connect (st : State) (sender : Nat) (slot : FSlot) : State :=
  { st with fconns := st.fconns ++ [(sender, slot)] }

/-- Constructor `CompositeTask(Tasks... tasks)`: the loop over `mTasks` that
connects the counting lambda to every child (no iteration for the default
constructor). -/
def CompositeTask.ctor (self : Nat) (mTasks : List Nat) (st : State) : State :=
  forEach mTasks (fun task s => s.connect task (.counter self)) st

/-- Constructor `FifoTask(Tasks... tasks)`, run after the base constructor. -/
def FifoTask.ctor (self : Nat) (mTasks : List Nat) (st : State) : State :=
  let st := CompositeTask.ctor self mTasks st
  match mTasks.getLast? with
  | none => st
  | some last =>
    let st := st.connect last (.finishWith self)
    forEach (mTasks.zip mTasks.tail)
      (fun p s => s.connect p.1 (.startNext self p.2)) st

/-- The factory `weave(tasks...)`. -/
def weave (tasks : List Nat) (st : State) : Nat × State :=
  let r := st.alloc (.composite { isFifo := false, mTasks := tasks })
  (r.1, CompositeTask.ctor r.1 tasks r.2)

/-- The factory `queue(tasks...)`. -/
def queue (tasks : List Nat) (st : State) : Nat × State :=
  let r := st.alloc (.composite { isFifo := true, mTasks := tasks })
  (r.1, FifoTask.ctor r.1 tasks r.2)

/-- The factory `task(workFn)` followed by `get()` for a callable that returns
an `Expected`, with the handlers registered on the builder. -/
def resultTask (work : Expected Int Int) (onDone onError : Handler) (st : State) :
    Nat × State :=
  st.alloc (.resultTask work onDone onError .idle)

/-- The factory `task(workFn)` followed by `get()` for a callable that returns
a plain value. -/
def plainTask (work : Int) (st : State) : Nat × State :=
  st.alloc (.plainTask work .idle)

/-- The method `onDone(callback)` of both `AsyncTask` templates: the
specialisation for `Expected` stores the callable, the generic template connects
it to the watcher (`takesResult` selects the overload with a parameter). -/
def AsyncTask.onDone (self : Nat) (callback : Handler) (takesResult : Bool) (st : State) :
    State :=
  match st.objs[self]? with
  | some (.resultTask r _ f w) => st.setObj self (.resultTask r callback f w)
  | some (.plainTask _ _) =>
    { st with wconns := st.wconns ++ [(self, WSlot.callback self callback takesResult)] }
  | _ => st.fail (.badPointer self)

/-- The method `onError(callback)` of both `AsyncTask` templates: the
specialisation for `Expected` stores the callable, the generic implementation
does nothing. -/
def AsyncTask.onError (self : Nat) (callback : Handler) (st : State) : State :=
  match st.objs[self]? with
  | some (.resultTask r s _ w) => st.setObj self (.resultTask r s callback w)
  | some (.plainTask _ _) => st
  | _ => st.fail (.badPointer self)

/-- The calls of the success and failure callbacks of `task`, in order. -/
def handlerCalls (task : Nat) (log : List Ev) : List Ev :=
  log.filter (fun e => match e with
    | .successCallback t _ _ => t = task
    | .failureCallback t _ _ => t = task
    | _ => false)

/-- A leaf of a composition: what the work returns and the handlers
registered on the builder before `get()`. -/
structure LeafSpec where
  work : Expected Int Int
  onDone : Handler := .noop
  onError : Handler := .noop
  deriving DecidableEq, Repr

/-- Builds one result task per entry of `ls`, in order; returns their
pointers. -/
def spawn : List LeafSpec → State → List Nat × State
  | [], st => ([], st)
  | l :: ls, st =>
    let r := resultTask l.work l.onDone l.onError st
    let rs := spawn ls r.2
    (r.1 :: rs.1, rs.2)

/-- The expression `weave(t0, ..., tn)` over freshly built result tasks. -/
def weaveOf (ls : List LeafSpec) : Nat × State :=
  let r := spawn ls {}
  weave r.1 r.2

/-- The expression `queue(t0, ..., tn)` over freshly built result tasks. -/
def queueOf (ls : List LeafSpec) : Nat × State :=
  let r := spawn ls {}
  queue r.1 r.2

/-- Starts the weave over `ls` and delivers the completions `order`. -/
def weaveRun (fuel : Nat) (ls : List LeafSpec) (order : List Nat) : State :=
  let r := weaveOf ls
  deliverAll fuel order (start fuel r.1 r.2)

/-- Starts the queue over `ls` and delivers the completions `order`. -/
def queueRun (fuel : Nat) (ls : List LeafSpec) (order : List Nat) : State :=
  let r := queueOf ls
  deliverAll fuel order (start fuel r.1 r.2)

/-- The success flag that leaf `i` of `ls` reports (`true` outside `ls`). -/
def flagOf (ls : List LeafSpec) (i : Nat) : Bool :=
  match ls[i]? with
  | some l => l.work.isValid
  | none => true

/-- The leaves whose watcher is running: work submitted and not yet ready. -/
def pending (st : State) : List Nat :=
  (List.range st.objs.length).filter (fun i =>
    match st.objs[i]? with
    | some (.plainTask _ .running) => true
    | some (.resultTask _ _ _ .running) => true
    | _ => false)

/-- The flags of the `finished(bool)` events raised by `task`, in order. -/
def emissions (task : Nat) (log : List Ev) : List Bool :=
  log.filterMap (fun e => match e with
    | .finished t b => if t = task then some b else none
    | _ => none)

/-- The leaves whose work was submitted, in order of submission. -/
def submissions (log : List Ev) : List Nat :=
  log.filterMap (fun e => match e with
    | .submitted t => some t
    | _ => none)

/-- The heap object of a leaf with its watcher in state `w`. -/
def LeafSpec.obj (l : LeafSpec) (w : Watcher) : Obj :=
  .resultTask l.work l.onDone l.onError w

/-- The event of the handler call that `onFinished` makes for leaf `i`. -/
def LeafSpec.callbackEv (l : LeafSpec) (i : Nat) : Ev :=
  match l.work with
  | .value v => .successCallback i l.onDone v
  | .error e => .failureCallback i l.onError e

/-- The facts about the heap of a flat composition over the leaves `ls` that
hold from construction on: the leaves sit at `0 .. N-1` with watcher states
`w`, the composite at `N` with the given counter and accumulator, and each
leaf's watcher is connected once it was started. -/
structure FlatInv (fifo : Bool) (ls : List LeafSpec) (w : Nat → Watcher) (cnt : Nat)
    (all : Bool) (st : State) : Prop where
  fault : st.fault = none
  len : st.objs.length = ls.length + 1
  obj : ∀ i (h : i < ls.length), st.objs[i]? = some (ls[i].obj (w i))
  comp : st.objs[ls.length]? =
    some (.composite ⟨fifo, List.range' 0 ls.length, cnt, all⟩)
  wslots : ∀ i, i < ls.length →
    slotsOf st.wconns i = if w i = .idle then [] else [.onFinished i, .deleteLater i]

/-- Every leaf's `finished` signal is connected to the counting lambda of the
weave at `p`, and nothing listens to the weave itself. -/
def WeaveSlots (n p : Nat) (st : State) : Prop :=
  ∀ i, slotsOf st.fconns i = if i < n then [FSlot.counter p] else []

/-- The connections that the `FifoTask` constructor makes for the queue at `p`
over the leaves `0 .. n-1`: the inherited counting lambda on every child, then
`finishWith` on the last child and the start-next lambda on every other. -/
def QueueSlots (n p : Nat) (st : State) : Prop :=
  ∀ i, slotsOf st.fconns i =
    if i < n then
      FSlot.counter p :: (if i + 1 = n then [FSlot.finishWith p] else [FSlot.startNext p (i + 1)])
    else []

/-- The log entries that the inherited counting lambda adds when the composite
at `p` processes a child completion with flag `b`. -/
def counterLog (c : CompositeTask) (p : Nat) (b : Bool) : List Ev :=
  if c.mTasks.length ≤ c.mFinishedCount + 1 then
    [.finished p (c.mAllSucceeded && b), .deleteLater p]
  else []

/-- Watcher states of the children of a queue whose first `j` children have
completed and whose child `j` is in flight. -/
def queueW (j : Nat) : Nat → Watcher :=
  fun i => if i < j then .finished else if i = j then .running else .idle

/-- State of a queue over `ls` after its first `j` children succeeded: child
`j` is in flight, the later ones untouched, the queue has raised no event. -/
structure QueueInv (ls : List LeafSpec) (j : Nat) (st : State) : Prop where
  flat : FlatInv true ls (queueW j) j true st
  slots : QueueSlots ls.length ls.length st
  subs : submissions st.log = List.range' 0 (j + 1)
  emis : emissions ls.length st.log = []

/-- Watcher states of the children of a queue that stopped at child `j`. -/
def stoppedW (j : Nat) : Nat → Watcher :=
  fun i => if i ≤ j then .finished else .idle

/-- Leaves of the scenario `[A, B, C]` with B failing. -/
def abcLeaves : List LeafSpec :=
  [⟨.value 1, .noop, .noop⟩, ⟨.error 2, .noop, .noop⟩, ⟨.value 3, .noop, .noop⟩]

/-- Leaves of a scenario with three succeeding children. -/
def okLeaves : List LeafSpec :=
  [⟨.value 1, .noop, .noop⟩, ⟨.value 2, .noop, .noop⟩, ⟨.value 3, .noop, .noop⟩]

/-- The expression `queue(weave(A, B), C)` over three fresh result tasks: A, B,
C get the addresses 0, 1, 2, the weave 3 and the queue 4. -/
def queueOfWeave (ra rb rc : Expected Int Int) : State :=
  let a := resultTask ra .noop .noop {}
  let b := resultTask rb .noop .noop a.2
  let c := resultTask rc .noop .noop b.2
  let w := weave [a.1, b.1] c.2
  let q := queue [w.1, c.1] w.2
  q.2

/-- A state of `queue(weave(A, B), C)`: the watchers of A, B, C, the counter and
accumulator of the weave and of the queue, whether C was started, the log. -/
def qowState (ra rb rc : Expected Int Int) (wa wb wc : Watcher) (cw : Nat) (aw : Bool)
    (cq : Nat) (aq : Bool) (startedC : Bool) (log : List Ev) : State :=
  ⟨[.resultTask ra .noop .noop wa, .resultTask rb .noop .noop wb,
      .resultTask rc .noop .noop wc, .composite ⟨false, [0, 1], cw, aw⟩,
      .composite ⟨true, [3, 2], cq, aq⟩],
    [(0, .counter 3), (1, .counter 3), (3, .counter 4), (2, .counter 4),
      (2, .finishWith 4), (3, .startNext 4 2)],
    [(0, .onFinished 0), (0, .deleteLater 0), (1, .onFinished 1), (1, .deleteLater 1)] ++
      (if startedC then [(2, .onFinished 2), (2, .deleteLater 2)] else []),
    log, none⟩

/-- The handler call of a leaf with default handlers. -/
def cbEv (r : Expected Int Int) (i : Nat) : Ev :=
  LeafSpec.callbackEv ⟨r, .noop, .noop⟩ i

/-- The tail of `finishWith`: the call `deleteLater()`, unless the run has left
the defined behaviour. -/
def andDelete (self : Nat) (st : State) : State :=
  if st.fault.isSome then st else st.emitEv (.deleteLater self)

/-- A fault raised after `st`, unless the run has left the defined behaviour
already. -/
def andFail (x : Fault) (st : State) : State :=
  if st.fault.isSome then st else st.fail x

/-- Starts `queue(weave(A, B), C)` and delivers the completions `order`. -/
def qowRun (fuel : Nat) (ra rb rc : Expected Int Int) (order : List Nat) : State :=
  deliverAll fuel order (start fuel 4 (queueOfWeave ra rb rc))

/-- The expression `weave(queue(A), B)` over two fresh result tasks: A gets the
address 0, the queue 1, B 2 and the weave 3. -/
def weaveOfQueue (ra rb : Expected Int Int) : State :=
  let a := resultTask ra .noop .noop {}
  let q := queue [a.1] a.2
  let b := resultTask rb .noop .noop q.2
  let w := weave [q.1, b.1] b.2
  w.2

/-- The expression `queue(queue(A), B)` over two fresh result tasks: A gets the
address 0, the inner queue 1, B 2 and the outer queue 3. -/
def queueOfQueue (ra rb : Expected Int Int) : State :=
  let a := resultTask ra .noop .noop {}
  let q1 := queue [a.1] a.2
  let b := resultTask rb .noop .noop q1.2
  let q0 := queue [q1.1, b.1] b.2
  q0.2

/-- The number of leading children of `ls` whose work succeeds. -/
def leadingOk (ls : List LeafSpec) : Nat :=
  (ls.takeWhile (fun l => l.work.isValid)).length

/-- The completions that become due in a started queue over `ls`: those of the
leading succeeding children and of the first failing one, in order. -/
def queueSchedule (ls : List LeafSpec) : List Nat :=
  List.range (min (leadingOk ls + 1) ls.length)

/-- The work callable handed to `task(...)`, represented by what it returns: a
plain value, or an `Expected`; the return type selects the `AsyncTask`
template. -/
inductive Work where
  | plain (v : Int)
  | expected (r : Expected Int Int)
  deriving DecidableEq, Repr

/-- The class `detail::TaskBuilder`: one pointer to the task it configures. -/
structure TaskBuilder where
  mTask : Nat
  deriving DecidableEq, Repr

/-- The factory `task(params...)`: `make_async_task` wraps the callable into a
new `AsyncTask` (constructor only, default no-op handlers) held by a
builder. -/
def task (work : Work) (st : State) : TaskBuilder × State :=
  match work with
  | .plain v => let r := st.alloc (.plainTask v .idle); (⟨r.1⟩, r.2)
  | .expected e => let r := st.alloc (.resultTask e .noop .noop .idle); (⟨r.1⟩, r.2)

/-- The method `TaskBuilder::onDone`: forwards to the task, returns `*this`. -/
def TaskBuilder.onDone (b : TaskBuilder) (callback : Handler) (takesResult : Bool)
    (st : State) : TaskBuilder × State :=
  (b, AsyncTask.onDone b.mTask callback takesResult st)

/-- The method `TaskBuilder::onError`: forwards to the task, returns `*this`. -/
def TaskBuilder.onError (b : TaskBuilder) (callback : Handler) (st : State) :
    TaskBuilder × State :=
  (b, AsyncTask.onError b.mTask callback st)

/-- The method `TaskBuilder::get`. -/
def TaskBuilder.get (b : TaskBuilder) : Nat :=
  b.mTask

/-- One call in a builder chain. -/
inductive BuilderCall where
  | onDone (callback : Handler) (takesResult : Bool)
  | onError (callback : Handler)
  deriving DecidableEq, Repr

/-- A chain of `onDone` / `onError` calls on a builder, left to right. -/
def TaskBuilder.chain : List BuilderCall → TaskBuilder × State → TaskBuilder × State
  | [], r => r
  | .onDone cb t :: cs, r => TaskBuilder.chain cs (r.1.onDone cb t r.2)
  | .onError cb :: cs, r => TaskBuilder.chain cs (r.1.onError cb r.2)

/-- The watcher state of the leaf task at `task`, if there is one. -/
def watcherOf (st : State) (task : Nat) : Option Watcher :=
  match st.objs[task]? with
  | some (.plainTask _ w) => some w
  | some (.resultTask _ _ _ w) => some w
  | _ => none

/-- The fields of the composite (weave or queue) at `task`, if there is one. -/
def compositeOf (st : State) (task : Nat) : Option CompositeTask :=
  match st.objs[task]? with
  | some (.composite c) => some c
  | _ => none

end Async

/-!
# Collection helpers (src/Algorithms)

Containers are lists in iteration order; an iterator is a position, `end()` is
the length.  Predicates, transformers and selectors are pure functions.
-/

namespace Foo

/-- The call `std::copy_if(first, last, std::back_inserter(out), pred)`: every
element that satisfies `pred` is appended to `out` by `push_back`, in order. -/
def copy_if {α : Type} (input out : List α) (pred : α → Bool) : List α :=
  input.foldl (fun acc x => if pred x then acc ++ [x] else acc) out

/-- The function `foo::filtered` of Filter.h; the output container starts
empty. -/
def filtered {α : Type} (container : List α) (filter : α → Bool) : List α :=
  copy_if container [] filter

/-- The function `foo::filteredAs` of Filter.h: `filtered` with the output
container type given explicitly. -/
def filteredAs {α : Type} (container : List α) (filter : α → Bool) : List α :=
  filtered container filter

/-- The call `std::transform(first, last, std::back_inserter(out), op)`. -/
def std_transform {α β : Type} (input : List α) (out : List β) (op : α → β) : List β :=
  input.foldl (fun acc x => acc ++ [op x]) out

/-- The function `detail::transformed_for_containers` of Transform.h (the
`reserve` call does not change the contents). -/
def transformed_for_containers {α β : Type} (input : List α) (transformer : α → β) :
    List β :=
  std_transform input [] transformer

/-- The function `detail::transformed_for_container_templates` of Transform.h. -/
def transformed_for_container_templates {α β : Type} (input : List α)
    (transformer : α → β) : List β :=
  transformed_for_containers input transformer

/-- The function `foo::transformed` for a container type that is a template
instance (`IsTemplate_v<Container>`): the output is the same template over the
result type of the transformer. -/
def transformed {α β : Type} (input : List α) (transformer : α → β) : List β :=
  transformed_for_container_templates input transformer

/-- The function `foo::transformed` for a container type that is not a template
instance: the output container type is `Container` itself. -/
def transformed_plain {α : Type} (input : List α) (transformer : α → α) : List α :=
  transformed_for_containers input transformer

/-- The function `foo::transformedAs`; `isTemplate` is `IsTemplate_v<Container>`,
which selects the branch. -/
def transformedAs {α β : Type} (isTemplate : Bool) (input : List α)
    (transformer : α → β) : List β :=
  if isTemplate then transformed_for_container_templates input transformer
  else transformed_for_containers input transformer

/-- The call `std::find_if(first, last, pred)`: the position of the first
element that satisfies `pred`, or the length when there is none. -/
def std_find_if {α : Type} : List α → (α → Bool) → Nat
  | [], _ => 0
  | x :: xs, pred => if pred x then 0 else std_find_if xs pred + 1

/-- The heterogeneous `foo::find(container, selector, value)` of Find.h; `eq`
is `operator==` between the selected property and the value. -/
def find {α β γ : Type} (eq : β → γ → Bool) (container : List α) (selector : α → β)
    (value : γ) : Option α :=
  let it := std_find_if container (fun element => eq (selector element) value)
  if it ≠ container.length then container[it]? else none

/-- The range `boost::make_iterator_range(begin + n, end)` over `items`. -/
def subrange {α : Type} (items : List α) (n : Nat) : List α :=
  items.drop n

/-- The call `std::find(first, last, value)`: the position of the first element
equal to `value` under `operator==` (`eq`), or the length when there is none. -/
def std_find {α γ : Type} (eq : α → γ → Bool) : List α → γ → Nat
  | [], _ => 0
  | x :: xs, value => if eq x value then 0 else std_find eq xs value + 1

/-- The overload `foo::find(container, value)` of Find.h. -/
def findValue {α γ : Type} (eq : α → γ → Bool) (container : List α) (value : γ) :
    Option α :=
  let it := std_find eq container value
  if it ≠ container.length then container[it]? else none

/-- A non-empty pack of selectors `selector, selectors...` as taken by
`foo::chained`: each selector accepts what the previous one returns. -/
inductive Selectors : Type → Type → Type 1 where
  | one {α β : Type} (selector : α → β) : Selectors α β
  | more {α γ β : Type} (selector : α → γ) (selectors : Selectors γ β) : Selectors α β

/-- The callable returned by `foo::chained(selector, selectors...)`, applied to
`object`: the branch `sizeof...(Selectors) == 0` invokes the selector, the other
one hands the selected value to `chained(selectors...)`. -/
def chained {α β : Type} : Selectors α β → α → β
  | .one selector, object => selector object
  | .more selector selectors, object => chained selectors (selector object)

/-- The pack `selectors..., last`. -/
def Selectors.snoc {α γ β : Type} : Selectors α γ → (γ → β) → Selectors α β
  | .one selector, last => .more selector (.one last)
  | .more selector selectors, last => .more selector (selectors.snoc last)

end Foo

/-!
# Table models (src/Models)

The backend container is a list of rows; a setter registered for a column is a
function from the row and the new value to the updated row (it receives a
reference to that one row).  `Columns::COLUMN_COUNT` is a field of the model.
View notifications (`dataChanged`, `beginInsertRows`, `endInsertRows`) carry no
state and are left out.
-/

namespace GenericModel

/-- The row and column of a `QModelIndex`. -/
structure QModelIndex where
  row : Int
  column : Int
  deriving DecidableEq, Repr

/-- The constant `Qt::EditRole`. -/
def EditRole : Int := 2

/-- The state of a `GenericModel<Underlying, Columns, Container>`: the rows, the
registered setters (lookup by column, as `QHash::find`) and
`Columns::COLUMN_COUNT`. -/
structure Model (U V : Type) where
  mData : List U
  mSetters : Int → Option (U → V → U)
  COLUMN_COUNT : Int

/-- The method `rowCount()`. -/
def rowCount {U V : Type} (m : Model U V) : Int :=
  m.mData.length

/-- The method `columnCount()`. -/
def columnCount {U V : Type} (m : Model U V) : Int :=
  m.COLUMN_COUNT

/-- The method `setData(index, value, role)`: the returned flag and the model
afterwards. -/
def setData {U V : Type} (m : Model U V) (index : QModelIndex) (value : V) (role : Int) :
    Bool × Model U V :=
  if index.row < 0 || index.row ≥ rowCount m || index.column ≥ columnCount m
      || EditRole ≠ role then
    (false, m)
  else
    match m.mSetters index.column with
    | some setter =>
      match m.mData[index.row.toNat]? with
      | some r => (true, { m with mData := m.mData.set index.row.toNat (setter r value) })
      | none => (true, m)
    | none => (false, m)

/-- The call `v.insert(std::next(v.begin(), pos), x)`; a position outside
`[begin, end]` is undefined behaviour (`none`). -/
def vecInsert {U : Type} (v : List U) (pos : Int) (x : U) : Option (List U) :=
  if 0 ≤ pos ∧ pos ≤ v.length then some (v.take pos.toNat ++ x :: v.drop pos.toNat)
  else none

/-- The loop `while (count-- > 0) mData.insert(std::next(mData.begin(), row),
Underlying())`, with `n` iterations left. -/
def insertLoop {U : Type} (dflt : U) : Nat → Int → List U → Option (List U)
  | 0, _, v => some v
  | n + 1, row, v =>
    match vecInsert v row dflt with
    | some v' => insertLoop dflt n row v'
    | none => none

/-- The method `GenericModel::insertRows(row, count)` on the rows `v`; `dflt` is
`Underlying()`. -/
def insertRows {U : Type} (dflt : U) (v : List U) (row count : Int) :
    Option (Bool × List U) :=
  if count ≤ 0 then some (false, v)
  else
    match insertLoop dflt count.toNat row v with
    | some v' => some (true, v')
    | none => none

/-- A model with one row and a setter registered under the column `-1`. -/
def negativeColumnModel : Model Int Int :=
  { mData := [0], mSetters := fun c => if c = -1 then some (fun _ v => v) else none,
    COLUMN_COUNT := 1 }

end GenericModel

namespace GenericModel2

/-- The call `v.insert(std::next(v.begin(), pos), count, x)`; a position outside
`[begin, end]` is undefined behaviour (`none`). -/
def vecInsertN {U : Type} (v : List U) (pos : Int) (count : Nat) (x : U) :
    Option (List U) :=
  if 0 ≤ pos ∧ pos ≤ v.length then
    some (v.take pos.toNat ++ List.replicate count x ++ v.drop pos.toNat)
  else none

/-- The method `GenericModel2::insertRows(row, count)` on the rows `v`; `dflt` is
`Underlying()`. -/
def insertRows {U : Type} (dflt : U) (v : List U) (row count : Int) :
    Option (Bool × List U) :=
  if count ≤ 0 then some (false, v)
  else
    match vecInsertN v row count.toNat dflt with
    | some v' => some (true, v')
    | none => none

end GenericModel2

namespace Async

/-! ## Auxiliary facts -/

theorem spawn_eq (ls : List LeafSpec) (st : State) :
    spawn ls st = (List.range' st.objs.length ls.length,
      { st with objs := st.objs ++ ls.map (fun l => l.obj .idle) }) := by
  induction ls generalizing st with
  | nil => simp [spawn]
  | cons l ls ih =>
    simp [spawn, ih, resultTask, State.alloc, List.range', LeafSpec.obj]

theorem forEach_nil {α : Type} (f : α → State → State) (st : State) :
    forEach [] f st = st := rfl

theorem forEach_cons {α : Type} (x : α) (xs : List α) (f : α → State → State) (st : State) :
    forEach (x :: xs) f st = forEach xs f (f x st) := rfl

theorem forEach_append {α : Type} (xs ys : List α) (f : α → State → State) (st : State) :
    forEach (xs ++ ys) f st = forEach ys f (forEach xs f st) := by
  simp [forEach, List.foldl_append]

theorem forEach_connect {α : Type} (xs : List α) (g : α → Nat × FSlot) (st : State) :
    forEach xs (fun x s => s.connect (g x).1 (g x).2) st =
      { st with fconns := st.fconns ++ xs.map g } := by
  induction xs generalizing st with
  | nil => simp [forEach]
  | cons x xs ih =>
    rw [forEach_cons, ih]
    simp [State.connect]

theorem slotsOf_append {α : Type} (xs ys : List (Nat × α)) (i : Nat) :
    slotsOf (xs ++ ys) i = slotsOf xs i ++ slotsOf ys i := by
  simp [slotsOf, List.filterMap_append]

theorem slotsOf_map_range' {α : Type} (f : Nat → α) (s n i : Nat) :
    slotsOf ((List.range' s n).map (fun c => (c, f c))) i =
      if s ≤ i ∧ i < s + n then [f i] else [] := by
  induction n generalizing s with
  | zero => simp [slotsOf]
  | succ n ih =>
    have h := ih (s + 1)
    simp only [slotsOf] at h ⊢
    simp only [List.range', List.map_cons, List.filterMap_cons]
    rw [h]
    by_cases hs : s = i
    · subst hs
      simp
    · simp only [hs, if_false]
      congr 1
      apply propext
      omega

theorem start_leaf (k i : Nat) (st : State) (r : Expected Int Int) (s f : Handler) (w : Watcher)
    (hf : st.fault = none) (ho : st.objs[i]? = some (.resultTask r s f w)) :
    start (k + 1) i st =
      { st with
        objs := st.objs.set i (.resultTask r s f .running)
        wconns := st.wconns ++ [(i, WSlot.onFinished i), (i, WSlot.deleteLater i)]
        log := st.log ++ [.submitted i] } := by
  simp [start, hf, ho, State.setObj, State.emitEv]

theorem emitFinished_eq (k i : Nat) (b : Bool) (st : State) (hf : st.fault = none) :
    emitFinished (k + 1) i b st =
      forEach (slotsOf st.fconns i) (fun s => runFSlot k s b) (st.emitEv (.finished i b)) := by
  simp [emitFinished, hf, State.emitEv]

theorem finishWith_eq (k i : Nat) (b : Bool) (st : State) (hf : st.fault = none)
    (hs : slotsOf st.fconns i = []) :
    finishWith (k + 2) i b st =
      { st with log := st.log ++ [.finished i b, .deleteLater i] } := by
  simp [finishWith, emitFinished, hf, hs, State.emitEv, forEach]

theorem deliver_leaf (fuel i : Nat) (st : State) (l : LeafSpec)
    (hf : st.fault = none) (ho : st.objs[i]? = some (l.obj .running))
    (hw : slotsOf st.wconns i = [.onFinished i, .deleteLater i]) :
    deliver fuel i st =
      runWSlot fuel (.deleteLater i)
        (emitFinished fuel i l.work.isValid
          { st with
            objs := st.objs.set i (l.obj .finished)
            log := st.log ++ [l.callbackEv i] }) := by
  have hlt : i < st.objs.length := by
    by_contra h
    rw [List.getElem?_eq_none (by omega)] at ho
    cases ho
  simp only [LeafSpec.obj] at ho
  simp only [deliver, hf, ho, State.setObj, hw, forEach, List.foldl_cons, List.foldl_nil,
    runWSlot, onFinished]
  cases hwk : l.work <;>
    simp [hlt, State.emitEv, LeafSpec.callbackEv, hwk, LeafSpec.obj]

theorem FlatInv.start_leaf_inv {fifo : Bool} {ls : List LeafSpec} {w : Nat → Watcher} {cnt : Nat}
    {all : Bool} {st : State} (h : FlatInv fifo ls w cnt all st) (k i : Nat)
    (hi : i < ls.length) (hw : w i = .idle) :
    FlatInv fifo ls (Function.update w i .running) cnt all (start (k + 1) i st) ∧
    (start (k + 1) i st).log = st.log ++ [.submitted i] ∧
    (start (k + 1) i st).fconns = st.fconns := by
  have ho := h.obj i hi
  rw [Async.start_leaf k i st _ _ _ _ h.fault ho]
  refine ⟨⟨h.fault, by simp [h.len], ?_, ?_, ?_⟩, rfl, rfl⟩
  · intro j hj
    simp only [List.getElem?_set, Function.update_apply]
    by_cases hji : i = j
    · subst hji
      have : i < st.objs.length := by
        by_contra hc
        rw [List.getElem?_eq_none (by omega)] at ho
        cases ho
      simp [this, LeafSpec.obj]
    · have hji' : ¬ j = i := fun e => hji e.symm
      simp [hji, hji', h.obj j hj]
  · simp only [List.getElem?_set]
    have : ¬ i = ls.length := by omega
    simp [this, h.comp]
  · intro j hj
    simp only [slotsOf_append, h.wslots j hj, Function.update_apply]
    by_cases hji : j = i
    · subst hji
      simp [hw, slotsOf]
    · have hji' : ¬ i = j := fun e => hji e.symm
      simp [hji, hji', slotsOf]

theorem flagOf_eq (ls : List LeafSpec) (i : Nat) (h : i < ls.length) :
    flagOf ls i = ls[i].work.isValid := by
  simp [flagOf, List.getElem?_eq_getElem h]

theorem runFSlot_counter (k self : Nat) (b : Bool) (st : State) (c : CompositeTask)
    (hf : st.fault = none) (ho : st.objs[self]? = some (.composite c))
    (hs : slotsOf st.fconns self = []) :
    runFSlot (k + 3) (.counter self) b st =
      { st with
        objs := st.objs.set self (.composite
          { c with mAllSucceeded := c.mAllSucceeded && b
                   mFinishedCount := c.mFinishedCount + 1 })
        log := st.log ++
          if c.mTasks.length ≤ c.mFinishedCount + 1 then
            [.finished self (c.mAllSucceeded && b), .deleteLater self]
          else [] } := by
  simp only [runFSlot, hf, ho, State.setObj]
  by_cases hc : c.mTasks.length ≤ c.mFinishedCount + 1
  · simp [hc, finishWith_eq, hf, hs]
  · simp [hc, hf]

theorem deliver_weave_leaf (k d : Nat) (st : State) (l : LeafSpec) (c : CompositeTask) (p : Nat)
    (hf : st.fault = none) (ho : st.objs[d]? = some (l.obj .running))
    (hw : slotsOf st.wconns d = [.onFinished d, .deleteLater d])
    (hdp : d ≠ p) (hp : st.objs[p]? = some (.composite c))
    (hfd : slotsOf st.fconns d = [.counter p]) (hfp : slotsOf st.fconns p = []) :
    deliver (k + 4) d st =
      { st with
        objs := (st.objs.set d (l.obj .finished)).set p (.composite
          { c with mAllSucceeded := c.mAllSucceeded && l.work.isValid
                   mFinishedCount := c.mFinishedCount + 1 })
        log := st.log ++ [l.callbackEv d, .finished d l.work.isValid] ++
          (if c.mTasks.length ≤ c.mFinishedCount + 1 then
            [.finished p (c.mAllSucceeded && l.work.isValid), .deleteLater p]
          else []) ++ [.deleteLater d] } := by
  have hp' : (st.objs.set d (l.obj .finished))[p]? = some (.composite c) := by
    simp [List.getElem?_set, hdp, hp]
  rw [deliver_leaf (k + 4) d st l hf ho hw]
  simp [emitFinished_eq, hf, hfd, forEach_cons, forEach_nil, State.emitEv,
    runFSlot_counter _ _ _ _ c, hp', hfp, runWSlot]

theorem FlatInv.congr {fifo : Bool} {ls : List LeafSpec} {w w' : Nat → Watcher} {cnt : Nat}
    {all : Bool} {st : State} (h : FlatInv fifo ls w cnt all st)
    (hw : ∀ i, i < ls.length → w i = w' i) : FlatInv fifo ls w' cnt all st :=
  ⟨h.fault, h.len, fun i hi => by rw [← hw i hi]; exact h.obj i hi, h.comp,
    fun i hi => by rw [← hw i hi]; exact h.wslots i hi⟩

theorem start_children {fifo : Bool} {ls : List LeafSpec} {cnt : Nat} {all : Bool} {st : State}
    (k : Nat) (h : FlatInv fifo ls (fun _ => .idle) cnt all st) (m : Nat) (hm : m ≤ ls.length) :
    FlatInv fifo ls (fun i => if i < m then .running else .idle) cnt all
        (forEach (List.range' 0 m) (fun child => start (k + 1) child) st) ∧
      (forEach (List.range' 0 m) (fun child => start (k + 1) child) st).log =
        st.log ++ (List.range' 0 m).map Ev.submitted ∧
      (forEach (List.range' 0 m) (fun child => start (k + 1) child) st).fconns = st.fconns := by
  induction m with
  | zero => simpa [forEach] using h
  | succ m ih =>
    obtain ⟨h1, h2, h3⟩ := ih (by omega)
    have hr : List.range' 0 (m + 1) = List.range' 0 m ++ [m] := by
      simp [List.range'_concat]
    rw [hr, forEach_append, forEach_cons, forEach_nil]
    obtain ⟨g1, g2, g3⟩ := h1.start_leaf_inv k m (by omega) (by simp)
    refine ⟨g1.congr ?_, ?_, ?_⟩
    · intro i _
      simp only [Function.update_apply]
      by_cases him : i = m
      · simp [him]
      · have : i < m + 1 ↔ i < m := by omega
        simp [him, this]
    · simp [g2, h2]
    · simp [g3, h3]

theorem weaveOf_eq (ls : List LeafSpec) :
    weaveOf ls = (ls.length,
      { objs := ls.map (fun l => l.obj .idle) ++
          [.composite ⟨false, List.range' 0 ls.length, 0, true⟩]
        fconns := (List.range' 0 ls.length).map (fun c => (c, FSlot.counter ls.length)) }) := by
  simp [weaveOf, spawn_eq, weave, State.alloc, CompositeTask.ctor,
    forEach_connect _ (fun c => (c, FSlot.counter ls.length))]

theorem weaveOf_inv (ls : List LeafSpec) :
    FlatInv false ls (fun _ => .idle) 0 true (weaveOf ls).2 := by
  rw [weaveOf_eq]
  refine ⟨rfl, by simp, ?_, ?_, ?_⟩
  · intro i hi
    simp [List.getElem?_append_left, hi]
  · simp [List.getElem?_append_right]
  · intro i _
    simp [slotsOf]

theorem emissions_append (t : Nat) (xs ys : List Ev) :
    emissions t (xs ++ ys) = emissions t xs ++ emissions t ys := by
  simp [emissions, List.filterMap_append]

theorem submissions_append (xs ys : List Ev) :
    submissions (xs ++ ys) = submissions xs ++ submissions ys := by
  simp [submissions, List.filterMap_append]

theorem emissions_callbackEv (t : Nat) (l : LeafSpec) (i : Nat) (xs : List Ev) :
    emissions t (l.callbackEv i :: xs) = emissions t xs := by
  unfold LeafSpec.callbackEv
  cases l.work <;> simp [emissions]

theorem submissions_callbackEv (l : LeafSpec) (i : Nat) (xs : List Ev) :
    submissions (l.callbackEv i :: xs) = submissions xs := by
  unfold LeafSpec.callbackEv
  cases l.work <;> simp [submissions]

theorem emissions_cons_finished (t i : Nat) (b : Bool) (xs : List Ev) :
    emissions t (.finished i b :: xs) =
      if i = t then b :: emissions t xs else emissions t xs := by
  by_cases h : i = t <;> simp [emissions, h]

theorem emissions_cons_deleteLater (t i : Nat) (xs : List Ev) :
    emissions t (.deleteLater i :: xs) = emissions t xs := by
  simp [emissions]

theorem emissions_cons_submitted (t i : Nat) (xs : List Ev) :
    emissions t (.submitted i :: xs) = emissions t xs := by
  simp [emissions]

theorem emissions_nil (t : Nat) : emissions t [] = [] := rfl

theorem submissions_cons_finished (i : Nat) (b : Bool) (xs : List Ev) :
    submissions (.finished i b :: xs) = submissions xs := by
  simp [submissions]

theorem submissions_cons_deleteLater (i : Nat) (xs : List Ev) :
    submissions (.deleteLater i :: xs) = submissions xs := by
  simp [submissions]

theorem submissions_cons_submitted (i : Nat) (xs : List Ev) :
    submissions (.submitted i :: xs) = i :: submissions xs := by
  simp [submissions]

theorem submissions_nil : submissions [] = [] := rfl

theorem emissions_map_submitted (t : Nat) (xs : List Nat) :
    emissions t (xs.map Ev.submitted) = [] := by
  induction xs with
  | nil => rfl
  | cons x xs ih => simp [emissions]

theorem submissions_map_submitted (xs : List Nat) :
    submissions (xs.map Ev.submitted) = xs := by
  induction xs with
  | nil => rfl
  | cons x xs ih => simpa [submissions] using ih

theorem weave_step {ls : List LeafSpec} {w : Nat → Watcher} {cnt : Nat} {all : Bool}
    {st : State} (h : FlatInv false ls w cnt all st) (hs : WeaveSlots ls.length ls.length st)
    (k d : Nat) (hd : d < ls.length) (hw : w d = .running) :
    FlatInv false ls (Function.update w d .finished) (cnt + 1) (all && flagOf ls d)
        (deliver (k + 4) d st) ∧
      WeaveSlots ls.length ls.length (deliver (k + 4) d st) ∧
      (deliver (k + 4) d st).log =
        st.log ++ [ls[d].callbackEv d, .finished d (flagOf ls d)] ++
          (if ls.length ≤ cnt + 1 then
            [.finished ls.length (all && flagOf ls d), .deleteLater ls.length]
          else []) ++ [.deleteLater d] := by
  have ho := h.obj d hd
  rw [hw] at ho
  have hwd := h.wslots d hd
  simp only [hw, if_false] at hwd
  have hfd := hs d
  simp only [hd, if_true] at hfd
  have hfp := hs ls.length
  simp only [Nat.lt_irrefl, if_false] at hfp
  have hlt : d < st.objs.length := by
    by_contra hc
    rw [List.getElem?_eq_none (by omega)] at ho
    cases ho
  rw [deliver_weave_leaf k d st ls[d] _ ls.length h.fault ho hwd (by omega) h.comp hfd hfp]
  rw [flagOf_eq ls d hd]
  refine ⟨⟨h.fault, by simp [h.len], ?_, ?_, ?_⟩, hs, by simp⟩
  · intro j hj
    have hjn : ¬ ls.length = j := by omega
    simp only [List.getElem?_set, hjn, if_false, Function.update_apply]
    by_cases hji : d = j
    · subst hji
      simp [hlt]
    · have hji' : ¬ j = d := fun e => hji e.symm
      simp [hji, hji', h.obj j hj]
  · have : ls.length < st.objs.length := by
      by_contra hc
      have := h.comp
      rw [List.getElem?_eq_none (by omega)] at this
      cases this
    simp [List.getElem?_set, this]
  · intro j hj
    simp only [h.wslots j hj, Function.update_apply]
    by_cases hji : j = d
    · subst hji
      simp [hw]
    · simp [hji]

theorem deliverAll_nil (fuel : Nat) (st : State) : deliverAll fuel [] st = st := rfl

theorem deliverAll_cons (fuel d : Nat) (ds : List Nat) (st : State) :
    deliverAll fuel (d :: ds) st = deliverAll fuel ds (deliver fuel d st) := rfl

theorem deliverAll_append (fuel : Nat) (xs ys : List Nat) (st : State) :
    deliverAll fuel (xs ++ ys) st = deliverAll fuel ys (deliverAll fuel xs st) := by
  simp [deliverAll, forEach_append]

theorem weave_deliverAll (ls : List LeafSpec) (k : Nat) :
    ∀ (ds : List Nat) (w : Nat → Watcher) (cnt : Nat) (all : Bool) (st : State),
      FlatInv false ls w cnt all st → WeaveSlots ls.length ls.length st → ds.Nodup →
      (∀ d ∈ ds, d < ls.length ∧ w d = .running) → cnt + ds.length ≤ ls.length →
      FlatInv false ls (fun i => if i ∈ ds then .finished else w i) (cnt + ds.length)
          (all && ds.all (flagOf ls)) (deliverAll (k + 4) ds st) ∧
        emissions ls.length (deliverAll (k + 4) ds st).log =
          emissions ls.length st.log ++
            (if ds ≠ [] ∧ cnt + ds.length = ls.length then [all && ds.all (flagOf ls)]
             else []) := by
  intro ds
  induction ds with
  | nil =>
    intro w cnt all st h _ _ _ _
    simpa [deliverAll_nil] using h
  | cons d ds ih =>
    intro w cnt all st h hs hnd hmem hlen
    rw [deliverAll_cons]
    have hd := hmem d (List.mem_cons_self _ _)
    obtain ⟨g1, g2, g3⟩ := weave_step h hs k d hd.1 hd.2
    have hnd' := List.nodup_cons.mp hnd
    simp only [List.length_cons] at hlen
    obtain ⟨i1, i2⟩ := ih _ _ _ _ g1 g2 hnd'.2 (by
      intro e he
      have := hmem e (List.mem_cons_of_mem _ he)
      refine ⟨this.1, ?_⟩
      have hne : e ≠ d := fun h' => hnd'.1 (h' ▸ he)
      simp [Function.update_apply, hne, this.2]) (by omega)
    refine ⟨?_, ?_⟩
    · have e1 : cnt + (d :: ds).length = cnt + 1 + ds.length := by simp; omega
      have e2 : (all && (d :: ds).all (flagOf ls)) = (all && flagOf ls d && ds.all (flagOf ls)) := by
        simp [Bool.and_assoc]
      rw [e1, e2]
      refine i1.congr ?_
      intro i _
      by_cases hid : i = d
      · subst hid
        simp [hnd'.1]
      · simp [hid, Function.update_apply]
    · rw [i2, g3]
      have hdn : ¬ d = ls.length := by omega
      simp only [emissions_append, emissions_callbackEv, emissions_cons_finished,
        emissions_cons_deleteLater, emissions_nil, List.append_assoc, hdn, if_false]
      by_cases hc : ls.length ≤ cnt + 1
      · have hds : ds = [] := by
          cases ds with
          | nil => rfl
          | cons x xs => simp at hlen; omega
        subst hds
        have : cnt + 1 = ls.length := by omega
        simp [emissions_cons_finished, emissions_cons_deleteLater, emissions_nil, hc, this]
      · have h1 : ¬ (cnt + 1 + ds.length = ls.length ∧ ds = []) := by
          rintro ⟨a, b⟩
          subst b
          simp at a
          omega
        by_cases hds : ds = []
        · subst hds
          have : ¬ cnt + 1 = ls.length := by omega
          simp [emissions_cons_finished, emissions_cons_deleteLater, emissions_nil, hc, this]
        · have e1 : cnt + (ds.length + 1) = cnt + 1 + ds.length := by omega
          simp [emissions_nil, hc, hds, e1, Bool.and_assoc]

theorem weave_started (ls : List LeafSpec) (k : Nat) :
    FlatInv false ls (fun _ => .running) 0 true
        (start (k + 2) (weaveOf ls).1 (weaveOf ls).2) ∧
      WeaveSlots ls.length ls.length (start (k + 2) (weaveOf ls).1 (weaveOf ls).2) ∧
      (start (k + 2) (weaveOf ls).1 (weaveOf ls).2).log =
        (List.range' 0 ls.length).map Ev.submitted := by
  have hinv := weaveOf_inv ls
  have hstart : start (k + 2) (weaveOf ls).1 (weaveOf ls).2 =
      forEach (List.range' 0 ls.length) (fun child => start (k + 1) child) (weaveOf ls).2 := by
    have hc := hinv.comp
    have h1 : (weaveOf ls).1 = ls.length := by rw [weaveOf_eq]
    rw [h1]
    simp [start, hinv.fault, hc]
  obtain ⟨h1, h2, h3⟩ := start_children k hinv ls.length (le_refl _)
  rw [hstart]
  refine ⟨h1.congr (fun i hi => by simp [hi]), ?_, ?_⟩
  · intro i
    rw [h3, weaveOf_eq]
    simp [slotsOf_map_range' (fun _ => FSlot.counter ls.length)]
  · rw [h2, weaveOf_eq]
    simp

theorem all_flagOf_perm (ls : List LeafSpec) (order : List Nat)
    (hperm : order.Perm (List.range ls.length)) :
    order.all (flagOf ls) = ls.all (fun l => l.work.isValid) := by
  rw [Bool.eq_iff_iff]
  simp only [List.all_eq_true]
  constructor
  · intro h l hl
    obtain ⟨i, hi, rfl⟩ := List.mem_iff_getElem.mp hl
    have := h i (hperm.mem_iff.mpr (List.mem_range.mpr hi))
    rwa [flagOf_eq ls i hi] at this
  · intro h i hi
    have hi' := List.mem_range.mp (hperm.mem_iff.mp hi)
    rw [flagOf_eq ls i hi']
    exact h _ (List.getElem_mem _)

theorem zip_range'_tail (s n : Nat) :
    (List.range' s (n + 1)).zip (List.range' s (n + 1)).tail =
      (List.range' s n).map (fun i => (i, i + 1)) := by
  induction n generalizing s with
  | zero => simp [List.range']
  | succ n ih =>
    have h := ih (s + 1)
    simp only [List.range', List.tail_cons] at h ⊢
    simp only [List.zip_cons_cons, List.map_cons, h]

theorem getLast?_range' (n : Nat) : (List.range' 0 (n + 1)).getLast? = some n := by
  have : List.range' 0 (n + 1) = List.range' 0 n ++ [n] := by simp [List.range'_concat]
  rw [this]
  simp

theorem compositeCtor_eq (self : Nat) (tasks : List Nat) (st : State) :
    CompositeTask.ctor self tasks st =
      { st with fconns := st.fconns ++ tasks.map (fun c => (c, FSlot.counter self)) } :=
  forEach_connect tasks (fun c => (c, FSlot.counter self)) st

theorem fifoCtor_eq (self n : Nat) (st : State) :
    FifoTask.ctor self (List.range' 0 (n + 1)) st =
      { st with fconns := st.fconns ++
          (List.range' 0 (n + 1)).map (fun c => (c, FSlot.counter self)) ++
          (n, FSlot.finishWith self) ::
            (List.range' 0 n).map (fun c => (c, FSlot.startNext self (c + 1))) } := by
  unfold FifoTask.ctor
  rw [getLast?_range', zip_range'_tail, compositeCtor_eq]
  have := forEach_connect ((List.range' 0 n).map (fun i => (i, i + 1)))
    (fun p : Nat × Nat => (p.1, FSlot.startNext self p.2))
  simp only at this ⊢
  rw [this]
  simp [State.connect, Function.comp_def]

theorem queueOf_eq (ls : List LeafSpec) :
    queueOf ls = (ls.length,
      { objs := ls.map (fun l => l.obj .idle) ++
          [.composite ⟨true, List.range' 0 ls.length, 0, true⟩]
        fconns := (List.range' 0 ls.length).map (fun c => (c, FSlot.counter ls.length)) ++
          (if ls.length = 0 then [] else
            (ls.length - 1, FSlot.finishWith ls.length) ::
              (List.range' 0 (ls.length - 1)).map
                (fun c => (c, FSlot.startNext ls.length (c + 1)))) }) := by
  cases hn : ls.length with
  | zero =>
    have : ls = [] := List.length_eq_zero.mp hn
    subst this
    rfl
  | succ n =>
    simp [queueOf, spawn_eq, queue, State.alloc, hn, fifoCtor_eq]

theorem slotsOf_cons {α : Type} (c : Nat × α) (xs : List (Nat × α)) (i : Nat) :
    slotsOf (c :: xs) i = if c.1 = i then c.2 :: slotsOf xs i else slotsOf xs i := by
  by_cases h : c.1 = i <;> simp [slotsOf, List.filterMap_cons, h]

theorem slotsOf_nil {α : Type} (i : Nat) : slotsOf ([] : List (Nat × α)) i = [] := rfl

theorem queueOf_inv (ls : List LeafSpec) :
    FlatInv true ls (fun _ => .idle) 0 true (queueOf ls).2 ∧
      QueueSlots ls.length ls.length (queueOf ls).2 ∧ (queueOf ls).2.log = [] := by
  rw [queueOf_eq]
  refine ⟨⟨rfl, by simp, ?_, ?_, ?_⟩, ?_, rfl⟩
  · intro i hi
    simp [List.getElem?_append_left, hi]
  · simp [List.getElem?_append_right]
  · intro i _
    simp [slotsOf]
  · intro i
    cases hn : ls.length with
    | zero => simp [slotsOf]
    | succ n =>
      simp only [slotsOf_append, slotsOf_cons, slotsOf_nil,
        slotsOf_map_range' (fun _ => FSlot.counter (n + 1)),
        slotsOf_map_range' (fun c => FSlot.startNext (n + 1) (c + 1)),
        Nat.add_sub_cancel, Nat.succ_ne_zero, if_false, Nat.zero_le, true_and, Nat.zero_add]
      rcases Nat.lt_trichotomy i n with h | h | h
      · have h1 : i < n + 1 := by omega
        have h2 : ¬ n = i := by omega
        have h3 : ¬ i + 1 = n + 1 := by omega
        simp [h, h1, h2, h3]
      · subst h
        simp
      · have h1 : ¬ i < n + 1 := by omega
        have h2 : ¬ n = i := by omega
        have h3 : ¬ i < n := by omega
        simp [h1, h2, h3]

theorem runFSlot_finishWith (k self : Nat) (b : Bool) (st : State)
    (hf : st.fault = none) (hs : slotsOf st.fconns self = []) :
    runFSlot (k + 3) (.finishWith self) b st =
      { st with log := st.log ++ [.finished self b, .deleteLater self] } := by
  simp [runFSlot, hf, finishWith_eq, hs]

theorem runFSlot_startNext_false (k self nxt : Nat) (st : State)
    (hf : st.fault = none) (hs : slotsOf st.fconns self = []) :
    runFSlot (k + 3) (.startNext self nxt) false st =
      { st with log := st.log ++ [.finished self false, .deleteLater self] } := by
  simp [runFSlot, hf, finishWith_eq, hs]

theorem runFSlot_startNext_true (k self nxt : Nat) (st : State) (l : LeafSpec) (w : Watcher)
    (hf : st.fault = none) (ho : st.objs[nxt]? = some (l.obj w)) :
    runFSlot (k + 3) (.startNext self nxt) true st =
      { st with
        objs := st.objs.set nxt (l.obj .running)
        wconns := st.wconns ++ [(nxt, WSlot.onFinished nxt), (nxt, WSlot.deleteLater nxt)]
        log := st.log ++ [.submitted nxt] } := by
  simp only [LeafSpec.obj] at ho
  simp [runFSlot, hf, start_leaf _ _ _ _ _ _ _ hf ho, LeafSpec.obj]

theorem runFSlot_counter_mk (k self : Nat) (b : Bool) (objs : List Obj)
    (fconns : List (Nat × FSlot)) (wconns : List (Nat × WSlot)) (log : List Ev)
    (c : CompositeTask) (ho : objs[self]? = some (.composite c))
    (hs : slotsOf fconns self = []) :
    runFSlot (k + 3) (.counter self) b ⟨objs, fconns, wconns, log, none⟩ =
      ⟨objs.set self (.composite
          { c with mAllSucceeded := c.mAllSucceeded && b
                   mFinishedCount := c.mFinishedCount + 1 }), fconns, wconns,
        log ++
          (if c.mTasks.length ≤ c.mFinishedCount + 1 then
            [.finished self (c.mAllSucceeded && b), .deleteLater self]
          else []), none⟩ :=
  runFSlot_counter k self b ⟨objs, fconns, wconns, log, none⟩ c rfl ho hs

theorem runFSlot_startNext_true_mk (k self nxt : Nat) (objs : List Obj)
    (fconns : List (Nat × FSlot)) (wconns : List (Nat × WSlot)) (log : List Ev)
    (l : LeafSpec) (w : Watcher) (ho : objs[nxt]? = some (l.obj w)) :
    runFSlot (k + 3) (.startNext self nxt) true ⟨objs, fconns, wconns, log, none⟩ =
      ⟨objs.set nxt (l.obj .running), fconns,
        wconns ++ [(nxt, WSlot.onFinished nxt), (nxt, WSlot.deleteLater nxt)],
        log ++ [.submitted nxt], none⟩ :=
  runFSlot_startNext_true k self nxt ⟨objs, fconns, wconns, log, none⟩ l w rfl ho

theorem deliver_queue_last (k d : Nat) (st : State) (l : LeafSpec) (c : CompositeTask) (p : Nat)
    (hf : st.fault = none) (ho : st.objs[d]? = some (l.obj .running))
    (hw : slotsOf st.wconns d = [.onFinished d, .deleteLater d])
    (hdp : d ≠ p) (hp : st.objs[p]? = some (.composite c))
    (hfd : slotsOf st.fconns d = [.counter p, .finishWith p]) (hfp : slotsOf st.fconns p = []) :
    deliver (k + 4) d st =
      { st with
        objs := (st.objs.set d (l.obj .finished)).set p (.composite
          { c with mAllSucceeded := c.mAllSucceeded && l.work.isValid
                   mFinishedCount := c.mFinishedCount + 1 })
        log := st.log ++ [l.callbackEv d, .finished d l.work.isValid] ++
          counterLog c p l.work.isValid ++
          [.finished p l.work.isValid, .deleteLater p] ++ [.deleteLater d] } := by
  have hp' : (st.objs.set d (l.obj .finished))[p]? = some (.composite c) := by
    simp [List.getElem?_set, hdp, hp]
  rw [deliver_leaf (k + 4) d st l hf ho hw]
  simp [emitFinished_eq, hf, hfd, forEach_cons, forEach_nil, State.emitEv,
    runFSlot_counter _ _ _ _ c, hp', hfp, runWSlot, runFSlot_finishWith, counterLog]

theorem deliver_queue_fail (k d nxt : Nat) (st : State) (l : LeafSpec) (c : CompositeTask)
    (p : Nat) (hf : st.fault = none) (ho : st.objs[d]? = some (l.obj .running))
    (hw : slotsOf st.wconns d = [.onFinished d, .deleteLater d])
    (hdp : d ≠ p) (hp : st.objs[p]? = some (.composite c))
    (hfd : slotsOf st.fconns d = [.counter p, .startNext p nxt])
    (hfp : slotsOf st.fconns p = []) (hv : l.work.isValid = false) :
    deliver (k + 4) d st =
      { st with
        objs := (st.objs.set d (l.obj .finished)).set p (.composite
          { c with mAllSucceeded := false
                   mFinishedCount := c.mFinishedCount + 1 })
        log := st.log ++ [l.callbackEv d, .finished d false] ++
          counterLog c p false ++
          [.finished p false, .deleteLater p] ++ [.deleteLater d] } := by
  have hp' : (st.objs.set d (l.obj .finished))[p]? = some (.composite c) := by
    simp [List.getElem?_set, hdp, hp]
  rw [deliver_leaf (k + 4) d st l hf ho hw]
  simp [emitFinished_eq, hf, hfd, forEach_cons, forEach_nil, State.emitEv,
    runFSlot_counter _ _ _ _ c, hp', hfp, runWSlot, runFSlot_startNext_false, counterLog, hv]

theorem deliver_queue_next (k d nxt : Nat) (st : State) (l l' : LeafSpec) (w : Watcher)
    (c : CompositeTask) (p : Nat)
    (hf : st.fault = none) (ho : st.objs[d]? = some (l.obj .running))
    (hw : slotsOf st.wconns d = [.onFinished d, .deleteLater d])
    (hdp : d ≠ p) (hp : st.objs[p]? = some (.composite c))
    (hfd : slotsOf st.fconns d = [.counter p, .startNext p nxt])
    (hfp : slotsOf st.fconns p = []) (hv : l.work.isValid = true)
    (hnd : nxt ≠ d) (hnp : nxt ≠ p) (hn : st.objs[nxt]? = some (l'.obj w)) :
    deliver (k + 4) d st =
      { st with
        objs := ((st.objs.set d (l.obj .finished)).set p (.composite
          { c with mAllSucceeded := c.mAllSucceeded
                   mFinishedCount := c.mFinishedCount + 1 })).set nxt (l'.obj .running)
        wconns := st.wconns ++ [(nxt, WSlot.onFinished nxt), (nxt, WSlot.deleteLater nxt)]
        log := st.log ++ [l.callbackEv d, .finished d true] ++
          counterLog c p true ++ [.submitted nxt] ++ [.deleteLater d] } := by
  have hp' : (st.objs.set d (l.obj .finished))[p]? = some (.composite c) := by
    simp [List.getElem?_set, hdp, hp]
  have hn' : ((st.objs.set d (l.obj .finished)).set p (.composite
      { c with mAllSucceeded := c.mAllSucceeded
               mFinishedCount := c.mFinishedCount + 1 }))[nxt]? = some (l'.obj w) := by
    simp [List.getElem?_set, hnd.symm, hnp.symm, hn]
  rw [deliver_leaf (k + 4) d st l hf ho hw]
  simp only [emitFinished_eq, hf, hfd, forEach_cons, forEach_nil, State.emitEv, hv]
  rw [runFSlot_counter_mk k p true _ _ _ _ c hp' hfp]
  simp only [Bool.and_true]
  rw [runFSlot_startNext_true_mk k p nxt _ _ _ _ l' w hn']
  simp [runWSlot, State.emitEv, counterLog]

theorem FlatInv.lt_length {fifo : Bool} {ls : List LeafSpec} {w : Nat → Watcher} {cnt : Nat}
    {all : Bool} {st : State} (h : FlatInv fifo ls w cnt all st) (i : Nat)
    (hi : i ≤ ls.length) : i < st.objs.length := by
  rw [h.len]; omega

theorem queue_started (ls : List LeafSpec) (k : Nat) (hN : 1 ≤ ls.length) :
    QueueInv ls 0 (start (k + 2) (queueOf ls).1 (queueOf ls).2) := by
  obtain ⟨hinv, hslots, hlog⟩ := queueOf_inv ls
  have hid : (queueOf ls).1 = ls.length := by rw [queueOf_eq]
  have hne : (List.range' 0 ls.length).isEmpty = false := by
    cases h : ls.length with
    | zero => omega
    | succ n => simp [List.range']
  have hhead : (List.range' 0 ls.length).head? = some 0 := by
    cases h : ls.length with
    | zero => omega
    | succ n => simp [List.range']
  have hstart : start (k + 2) (queueOf ls).1 (queueOf ls).2 =
      start (k + 1) 0 (queueOf ls).2 := by
    rw [hid]
    simp [start, hinv.fault, hinv.comp, hne, hhead]
  obtain ⟨g1, g2, g3⟩ := hinv.start_leaf_inv k 0 (by omega) rfl
  rw [hstart]
  refine ⟨g1.congr ?_, ?_, ?_, ?_⟩
  · intro i _
    by_cases hi : i = 0 <;> simp [queueW, Function.update_apply, hi]
  · intro i
    rw [g3]
    exact hslots i
  · rw [g2, hlog]
    rfl
  · rw [g2, hlog]
    rfl

theorem counterLog_lt (c : CompositeTask) (p : Nat) (b : Bool)
    (h : c.mFinishedCount + 1 < c.mTasks.length) : counterLog c p b = [] := by
  have : ¬ c.mTasks.length ≤ c.mFinishedCount + 1 := by omega
  simp [counterLog, this]

theorem counterLog_ge (c : CompositeTask) (p : Nat) (b : Bool)
    (h : c.mTasks.length ≤ c.mFinishedCount + 1) :
    counterLog c p b = [.finished p (c.mAllSucceeded && b), .deleteLater p] := by
  simp [counterLog, h]

theorem queue_next {ls : List LeafSpec} {j : Nat} {st : State} (h : QueueInv ls j st)
    (k : Nat) (hj : j + 1 < ls.length) (hv : flagOf ls j = true) :
    QueueInv ls (j + 1) (deliver (k + 4) j st) := by
  have hjl : j < ls.length := by omega
  have ho := h.flat.obj j hjl
  have hwj : queueW j j = .running := by simp [queueW]
  rw [hwj] at ho
  have hwd := h.flat.wslots j hjl
  simp only [hwj, if_false] at hwd
  have hfd := h.slots j
  have hne : ¬ j + 1 = ls.length := by omega
  simp only [hjl, if_true, hne, if_false] at hfd
  have hfp := h.slots ls.length
  simp only [Nat.lt_irrefl, if_false] at hfp
  have hn := h.flat.obj (j + 1) hj
  rw [flagOf_eq ls j hjl] at hv
  rw [deliver_queue_next k j (j + 1) st ls[j] ls[j + 1] _ _ ls.length h.flat.fault ho hwd
    (by omega) h.flat.comp hfd hfp hv (by omega) (by omega) hn]
  have hlen := h.flat.len
  refine ⟨⟨h.flat.fault, by simp [hlen], ?_, ?_, ?_⟩, h.slots, ?_, ?_⟩
  · intro i hi
    simp only [List.getElem?_set, List.length_set, hlen]
    by_cases h1 : i = j + 1
    · subst h1
      have : j + 1 < ls.length + 1 := by omega
      simp [queueW, this]
    · have h1' : ¬ j + 1 = i := fun e => h1 e.symm
      have h2 : ¬ ls.length = i := by omega
      by_cases h3 : i = j
      · subst h3
        have : i < ls.length + 1 := by omega
        simp [queueW, h1', h2, this]
      · have h3' : ¬ j = i := fun e => h3 e.symm
        have := h.flat.obj i hi
        simp only [h1', h2, h3', if_false, this]
        congr 2
        simp only [queueW, h1, h3, if_false]
        by_cases h4 : i < j
        · have : i < j + 1 := by omega
          simp [h4, this]
        · have : ¬ i < j + 1 := by omega
          simp [h4, this]
  · have h1 : ¬ j + 1 = ls.length := by omega
    have h2 : ls.length < ls.length + 1 := by omega
    simp [List.getElem?_set, h1, hlen]
  · intro i hi
    simp only [slotsOf_append, slotsOf_cons, slotsOf_nil, h.flat.wslots i hi]
    by_cases h1 : i = j + 1
    · subst h1
      simp [queueW]
    · have h1' : ¬ j + 1 = i := fun e => h1 e.symm
      simp only [h1', if_false, List.append_nil]
      by_cases h3 : i = j
      · subst h3
        simp [queueW]
      · by_cases h4 : i < j
        · have : i < j + 1 := by omega
          simp [queueW, h4, this]
        · have : ¬ i < j + 1 := by omega
          simp [queueW, h4, this, h1, h3]
  · have hcl : counterLog ⟨true, List.range' 0 ls.length, j, true⟩ ls.length true = [] :=
      counterLog_lt _ _ _ (by simpa using hj)
    rw [hcl]
    simp only [submissions_append, h.subs, submissions_callbackEv, submissions_cons_finished,
      submissions_cons_submitted, submissions_cons_deleteLater, submissions_nil,
      List.append_nil, List.append_assoc, List.nil_append]
    have : List.range' 0 (j + 1 + 1) = List.range' 0 (j + 1) ++ [j + 1] := by
      simp [List.range'_concat]
    rw [this]
  · have hcl : counterLog ⟨true, List.range' 0 ls.length, j, true⟩ ls.length true = [] :=
      counterLog_lt _ _ _ (by simpa using hj)
    rw [hcl]
    have : ¬ j = ls.length := by omega
    simp [emissions_append, h.emis, emissions_callbackEv, emissions_cons_finished,
      emissions_cons_submitted, emissions_cons_deleteLater, emissions_nil, this]

theorem queue_stop {ls : List LeafSpec} {j : Nat} {st : State} (h : QueueInv ls j st)
    (k : Nat) (hjl : j < ls.length) (hv : j + 1 = ls.length ∨ flagOf ls j = false) :
    FlatInv true ls (stoppedW j) (j + 1) (flagOf ls j) (deliver (k + 4) j st) ∧
      submissions (deliver (k + 4) j st).log = List.range' 0 (j + 1) ∧
      emissions ls.length (deliver (k + 4) j st).log =
        (if j + 1 = ls.length then [flagOf ls j, flagOf ls j] else [false]) := by
  have ho := h.flat.obj j hjl
  have hwj : queueW j j = .running := by simp [queueW]
  rw [hwj] at ho
  have hwd := h.flat.wslots j hjl
  simp only [hwj, if_false] at hwd
  have hfd := h.slots j
  simp only [hjl, if_true] at hfd
  have hfp := h.slots ls.length
  simp only [Nat.lt_irrefl, if_false] at hfp
  have hlen := h.flat.len
  have hjn : ¬ j = ls.length := by omega
  have hobj : ∀ (c' : CompositeTask) i (hi : i < ls.length),
      ((st.objs.set j (ls[j].obj .finished)).set ls.length (.composite c'))[i]? =
        some (ls[i].obj (stoppedW j i)) := by
    intro c' i hi
    have h2 : ¬ ls.length = i := by omega
    simp only [List.getElem?_set, h2, if_false]
    by_cases h3 : i = j
    · subst h3
      have : i < st.objs.length := by omega
      simp [stoppedW, this]
    · have h3' : ¬ j = i := fun e => h3 e.symm
      have := h.flat.obj i hi
      simp only [h3', if_false, this]
      congr 2
      simp only [queueW, stoppedW, h3, if_false]
      by_cases h4 : i < j
      · have : i ≤ j := by omega
        simp [h4, this]
      · have : ¬ i ≤ j := by omega
        simp [h4, this]
  have hws : ∀ i, i < ls.length →
      slotsOf st.wconns i = if stoppedW j i = .idle then [] else [.onFinished i, .deleteLater i] := by
    intro i hi
    rw [h.flat.wslots i hi]
    by_cases h3 : i = j
    · subst h3
      simp [queueW, stoppedW]
    · by_cases h4 : i < j
      · have : i ≤ j := by omega
        simp [queueW, stoppedW, h4, this]
      · have : ¬ i ≤ j := by omega
        simp [queueW, stoppedW, h4, this, h3]
  by_cases hlast : j + 1 = ls.length
  · simp only [hlast, if_true] at hfd ⊢
    rw [deliver_queue_last k j st ls[j] _ ls.length h.flat.fault ho hwd hjn h.flat.comp hfd hfp]
    rw [counterLog_ge _ _ _ (by simp; omega), flagOf_eq ls j hjl]
    refine ⟨⟨h.flat.fault, by simp [hlen], hobj _, ?_, hws⟩, ?_, ?_⟩
    · simp [List.getElem?_set, hlen, hlast]
    · simp only [submissions_append, h.subs, submissions_callbackEv, submissions_cons_finished,
        submissions_cons_deleteLater, submissions_nil, List.append_nil, List.append_assoc]
      rw [hlast]
    · simp [emissions_append, h.emis, emissions_callbackEv, emissions_cons_finished,
        emissions_cons_deleteLater, emissions_nil, hjn]
  · have hvf : flagOf ls j = false := by
      rcases hv with hv | hv
      · exact absurd hv hlast
      · exact hv
    simp only [hlast, if_false] at hfd ⊢
    rw [flagOf_eq ls j hjl] at hvf
    rw [deliver_queue_fail k j (j + 1) st ls[j] _ ls.length h.flat.fault ho hwd hjn h.flat.comp
      hfd hfp hvf]
    rw [counterLog_lt _ _ _ (by simp; omega), flagOf_eq ls j hjl, hvf]
    refine ⟨⟨h.flat.fault, by simp [hlen], ?_, ?_, hws⟩, ?_, ?_⟩
    · intro i hi
      rw [← hvf]
      exact hobj _ i hi
    · simp [List.getElem?_set, hlen]
    · simp only [submissions_append, h.subs, submissions_callbackEv, submissions_cons_finished,
        submissions_cons_deleteLater, submissions_nil, List.append_nil, List.append_assoc]
    · simp [emissions_append, h.emis, emissions_callbackEv, emissions_cons_finished,
        emissions_cons_deleteLater, emissions_nil, hjn]

theorem pending_eq {fifo : Bool} {ls : List LeafSpec} {w : Nat → Watcher} {cnt : Nat}
    {all : Bool} {st : State} (h : FlatInv fifo ls w cnt all st) :
    pending st = (List.range ls.length).filter (fun i => decide (w i = .running)) := by
  unfold pending
  rw [h.len, List.range_succ, List.filter_append]
  have hc : ([ls.length].filter fun i =>
      match st.objs[i]? with
      | some (.plainTask _ .running) => true
      | some (.resultTask _ _ _ .running) => true
      | _ => false) = [] := by
    simp [List.filter, h.comp]
  rw [hc, List.append_nil]
  apply List.filter_congr
  intro i hi
  have hi' := List.mem_range.mp hi
  rw [h.obj i hi']
  cases hw : w i <;> simp [LeafSpec.obj]

theorem filter_queueW (j n : Nat) :
    (List.range n).filter (fun i => decide (queueW j i = .running)) =
      if j < n then [j] else [] := by
  induction n with
  | zero => simp
  | succ n ih =>
    rw [List.range_succ, List.filter_append, ih]
    by_cases h1 : j < n
    · have h2 : j < n + 1 := by omega
      have h3 : ¬ n < j := by omega
      have h4 : ¬ n = j := by omega
      simp [h1, h2, queueW, h3, h4, List.filter]
    · by_cases h2 : j = n
      · subst h2
        simp [queueW, List.filter]
      · have h3 : ¬ j < n + 1 := by omega
        have h4 : ¬ n = j := fun e => h2 e.symm
        have h5 : n < j := by omega
        simp [h1, h3, queueW, h4, h5, List.filter]

theorem filter_stoppedW (j n : Nat) :
    (List.range n).filter (fun i => decide (stoppedW j i = .running)) = [] := by
  rw [List.filter_eq_nil_iff]
  intro i _
  by_cases h : i ≤ j <;> simp [stoppedW, h]

theorem queue_prefix (ls : List LeafSpec) (k : Nat) (hN : 1 ≤ ls.length) (j : Nat)
    (hj : j < ls.length) (hall : ∀ i, i < j → flagOf ls i = true) :
    QueueInv ls j (queueRun (k + 4) ls (List.range j)) := by
  induction j with
  | zero => exact queue_started ls (k + 2) hN
  | succ j ih =>
    have h := ih (by omega) (fun i hi => hall i (by omega))
    have := queue_next h k hj (hall j (by omega))
    unfold queueRun at h this ⊢
    rw [List.range_succ, deliverAll_append]
    exact this

theorem queue_next_log {ls : List LeafSpec} {j : Nat} {st : State} (h : QueueInv ls j st)
    (k : Nat) (hj : j + 1 < ls.length) (hv : flagOf ls j = true) :
    (deliver (k + 4) j st).log =
      st.log ++ [ls[j].callbackEv j, .finished j true, .submitted (j + 1), .deleteLater j] := by
  have hjl : j < ls.length := by omega
  have ho := h.flat.obj j hjl
  have hwj : queueW j j = .running := by simp [queueW]
  rw [hwj] at ho
  have hwd := h.flat.wslots j hjl
  simp only [hwj, if_false] at hwd
  have hfd := h.slots j
  have hne : ¬ j + 1 = ls.length := by omega
  simp only [hjl, if_true, hne, if_false] at hfd
  have hfp := h.slots ls.length
  simp only [Nat.lt_irrefl, if_false] at hfp
  have hn := h.flat.obj (j + 1) hj
  rw [flagOf_eq ls j hjl] at hv
  rw [deliver_queue_next k j (j + 1) st ls[j] ls[j + 1] _ _ ls.length h.flat.fault ho hwd
    (by omega) h.flat.comp hfd hfp hv (by omega) (by omega) hn]
  have hcl : counterLog ⟨true, List.range' 0 ls.length, j, true⟩ ls.length true = [] :=
    counterLog_lt _ _ _ (by simpa using hj)
  rw [hcl]
  simp

theorem eval_andFail (x : Fault) (o : List Obj) (f : List (Nat × FSlot))
    (w : List (Nat × WSlot)) (l : List Ev) :
    andFail x ⟨o, f, w, l, none⟩ = ⟨o, f, w, l, some x⟩ := rfl

theorem eval_andFail_fault (x y : Fault) (o : List Obj) (f : List (Nat × FSlot))
    (w : List (Nat × WSlot)) (l : List Ev) :
    andFail x ⟨o, f, w, l, some y⟩ = ⟨o, f, w, l, some y⟩ := rfl

theorem eval_andDelete (self : Nat) (o : List Obj) (f : List (Nat × FSlot))
    (w : List (Nat × WSlot)) (l : List Ev) :
    andDelete self ⟨o, f, w, l, none⟩ = ⟨o, f, w, l ++ [.deleteLater self], none⟩ := rfl

theorem eval_andDelete_fault (self : Nat) (o : List Obj) (f : List (Nat × FSlot))
    (w : List (Nat × WSlot)) (l : List Ev) (x : Fault) :
    andDelete self ⟨o, f, w, l, some x⟩ = ⟨o, f, w, l, some x⟩ := rfl

theorem eval_emitFinished (k i : Nat) (b : Bool) (o : List Obj) (f : List (Nat × FSlot))
    (w : List (Nat × WSlot)) (l : List Ev) :
    emitFinished (k + 1) i b ⟨o, f, w, l, none⟩ =
      forEach (slotsOf f i) (fun s => runFSlot k s b) ⟨o, f, w, l ++ [.finished i b], none⟩ := by
  simp [emitFinished, State.emitEv]

theorem eval_finishWith (k i : Nat) (b : Bool) (o : List Obj) (f : List (Nat × FSlot))
    (w : List (Nat × WSlot)) (l : List Ev) :
    finishWith (k + 1) i b ⟨o, f, w, l, none⟩ =
      andDelete i (emitFinished k i b ⟨o, f, w, l, none⟩) := by
  simp [finishWith, andDelete]

theorem eval_counter (k self : Nat) (b : Bool) (o : List Obj) (f : List (Nat × FSlot))
    (w : List (Nat × WSlot)) (l : List Ev) :
    runFSlot (k + 1) (.counter self) b ⟨o, f, w, l, none⟩ =
      match o[self]? with
      | some (.composite c) =>
        if c.mTasks.length ≤ c.mFinishedCount + 1 then
          finishWith k self (c.mAllSucceeded && b)
            ⟨o.set self (.composite ⟨c.isFifo, c.mTasks, c.mFinishedCount + 1,
              c.mAllSucceeded && b⟩), f, w, l, none⟩
        else
          ⟨o.set self (.composite ⟨c.isFifo, c.mTasks, c.mFinishedCount + 1,
              c.mAllSucceeded && b⟩), f, w, l, none⟩
      | _ => ⟨o, f, w, l, some (.badPointer self)⟩ := by
  simp only [runFSlot]
  split <;> simp_all [State.setObj, State.fail]

theorem eval_finishWithSlot (k self : Nat) (b : Bool) (o : List Obj) (f : List (Nat × FSlot))
    (w : List (Nat × WSlot)) (l : List Ev) :
    runFSlot (k + 1) (.finishWith self) b ⟨o, f, w, l, none⟩ =
      finishWith k self b ⟨o, f, w, l, none⟩ := by
  simp [runFSlot]

theorem eval_startNext_true (k self nxt : Nat) (o : List Obj) (f : List (Nat × FSlot))
    (w : List (Nat × WSlot)) (l : List Ev) :
    runFSlot (k + 1) (.startNext self nxt) true ⟨o, f, w, l, none⟩ =
      start k nxt ⟨o, f, w, l, none⟩ := by
  simp [runFSlot]

theorem eval_startNext_false (k self nxt : Nat) (o : List Obj) (f : List (Nat × FSlot))
    (w : List (Nat × WSlot)) (l : List Ev) :
    runFSlot (k + 1) (.startNext self nxt) false ⟨o, f, w, l, none⟩ =
      finishWith k self false ⟨o, f, w, l, none⟩ := by
  simp [runFSlot]

theorem eval_runFSlot_fault (k : Nat) (s : FSlot) (b : Bool) (o : List Obj)
    (f : List (Nat × FSlot)) (w : List (Nat × WSlot)) (l : List Ev) (x : Fault) :
    runFSlot (k + 1) s b ⟨o, f, w, l, some x⟩ = ⟨o, f, w, l, some x⟩ := by
  simp [runFSlot]

theorem eval_start_fault (k i : Nat) (o : List Obj)
    (f : List (Nat × FSlot)) (w : List (Nat × WSlot)) (l : List Ev) (x : Fault) :
    start (k + 1) i ⟨o, f, w, l, some x⟩ = ⟨o, f, w, l, some x⟩ := by
  simp [start]

theorem eval_start (k i : Nat) (o : List Obj) (f : List (Nat × FSlot))
    (w : List (Nat × WSlot)) (l : List Ev) :
    start (k + 1) i ⟨o, f, w, l, none⟩ =
      match o[i]? with
      | some (.plainTask v _) =>
        ⟨o.set i (.plainTask v .running), f, w ++ [(i, WSlot.deleteLater i)],
          l ++ [.submitted i], none⟩
      | some (.resultTask r s e _) =>
        ⟨o.set i (.resultTask r s e .running), f,
          w ++ [(i, WSlot.onFinished i), (i, WSlot.deleteLater i)], l ++ [.submitted i], none⟩
      | some (.composite c) =>
        if c.isFifo then
          match c.mTasks with
          | [] => andFail (.firstOfEmpty i) (finishWith k i true ⟨o, f, w, l, none⟩)
          | first :: _ => start k first ⟨o, f, w, l, none⟩
        else
          forEach c.mTasks (fun child => start k child) ⟨o, f, w, l, none⟩
      | none => ⟨o, f, w, l, some (.badPointer i)⟩ := by
  simp only [start, Option.isSome_none, Bool.false_eq_true, if_false]
  cases ho : o[i]? with
  | none => simp [State.fail]
  | some ob =>
    cases ob with
    | plainTask v x => simp [State.setObj, State.emitEv]
    | resultTask r s e x => simp [State.setObj, State.emitEv]
    | composite c =>
      obtain ⟨isFifo, mTasks, cnt, all⟩ := c
      cases isFifo with
      | false => simp
      | true =>
        cases mTasks with
        | nil => simp [andFail]
        | cons t ts => simp

theorem eval_deliver (fuel i : Nat) (o : List Obj) (f : List (Nat × FSlot))
    (w : List (Nat × WSlot)) (l : List Ev) :
    deliver fuel i ⟨o, f, w, l, none⟩ =
      match o[i]? with
      | some (.plainTask v .running) =>
        forEach (slotsOf w i) (fun s => runWSlot fuel s)
          ⟨o.set i (.plainTask v .finished), f, w, l, none⟩
      | some (.resultTask r s e .running) =>
        forEach (slotsOf w i) (fun s => runWSlot fuel s)
          ⟨o.set i (.resultTask r s e .finished), f, w, l, none⟩
      | _ => ⟨o, f, w, l, some (.notPending i)⟩ := by
  simp only [deliver]
  split <;> simp_all [State.setObj, State.fail]

theorem eval_onFinishedSlot (fuel self : Nat) (o : List Obj) (f : List (Nat × FSlot))
    (w : List (Nat × WSlot)) (l : List Ev) :
    runWSlot fuel (.onFinished self) ⟨o, f, w, l, none⟩ =
      match o[self]? with
      | some (.resultTask r s e _) =>
        emitFinished fuel self r.isValid
          ⟨o, f, w, l ++ [LeafSpec.callbackEv ⟨r, s, e⟩ self], none⟩
      | _ => ⟨o, f, w, l, some (.badPointer self)⟩ := by
  simp only [runWSlot, onFinished, Option.isSome_none, Bool.false_eq_true, if_false]
  cases ho : o[self]? with
  | none => simp [State.fail]
  | some ob =>
    cases ob with
    | plainTask v x => simp [State.fail]
    | composite c => simp [State.fail]
    | resultTask r s e x => cases r <;> simp [State.emitEv, LeafSpec.callbackEv]

theorem eval_deleteLaterSlot (fuel self : Nat) (o : List Obj) (f : List (Nat × FSlot))
    (w : List (Nat × WSlot)) (l : List Ev) :
    runWSlot fuel (.deleteLater self) ⟨o, f, w, l, none⟩ =
      ⟨o, f, w, l ++ [.deleteLater self], none⟩ := by
  simp [runWSlot, State.emitEv]

theorem eval_runWSlot_fault (fuel : Nat) (s : WSlot) (o : List Obj)
    (f : List (Nat × FSlot)) (w : List (Nat × WSlot)) (l : List Ev) (x : Fault) :
    runWSlot fuel s ⟨o, f, w, l, some x⟩ = ⟨o, f, w, l, some x⟩ := by
  simp [runWSlot]

theorem qow_start (ra rb rc : Expected Int Int) (k : Nat) :
    start (k + 3) 4 (queueOfWeave ra rb rc) =
      qowState ra rb rc .running .running .idle 0 true 0 true false
        [.submitted 0, .submitted 1] := by
  have h : queueOfWeave ra rb rc =
      ⟨[.resultTask ra .noop .noop .idle, .resultTask rb .noop .noop .idle,
        .resultTask rc .noop .noop .idle, .composite ⟨false, [0, 1], 0, true⟩,
        .composite ⟨true, [3, 2], 0, true⟩],
       [(0, .counter 3), (1, .counter 3), (3, .counter 4), (2, .counter 4),
        (2, .finishWith 4), (3, .startNext 4 2)], [], [], none⟩ := rfl
  rw [h]
  simp [qowState, eval_start, forEach]

theorem qow_firstA (ra rb rc : Expected Int Int) (wb : Watcher) (log : List Ev) (k : Nat) :
    deliver (k + 4) 0 (qowState ra rb rc .running wb .idle 0 true 0 true false log) =
      qowState ra rb rc .finished wb .idle 1 ra.isValid 0 true false
        (log ++ [cbEv ra 0, .finished 0 ra.isValid, .deleteLater 0]) := by
  simp [qowState, eval_deliver, eval_onFinishedSlot, eval_deleteLaterSlot, eval_emitFinished,
    eval_counter, eval_finishWith, eval_startNext_true, eval_startNext_false,
    eval_finishWithSlot, eval_start, eval_andDelete, forEach, slotsOf, cbEv]

theorem qow_firstB (ra rb rc : Expected Int Int) (wa : Watcher) (log : List Ev) (k : Nat) :
    deliver (k + 4) 1 (qowState ra rb rc wa .running .idle 0 true 0 true false log) =
      qowState ra rb rc wa .finished .idle 1 rb.isValid 0 true false
        (log ++ [cbEv rb 1, .finished 1 rb.isValid, .deleteLater 1]) := by
  simp [qowState, eval_deliver, eval_onFinishedSlot, eval_deleteLaterSlot, eval_emitFinished,
    eval_counter, eval_finishWith, eval_startNext_true, eval_startNext_false,
    eval_finishWithSlot, eval_start, eval_andDelete, forEach, slotsOf, cbEv]

theorem qow_secondB_ok (ra rb rc : Expected Int Int) (wa : Watcher) (aw : Bool)
    (log : List Ev) (k : Nat) (hg : (aw && rb.isValid) = true) :
    deliver (k + 7) 1 (qowState ra rb rc wa .running .idle 1 aw 0 true false log) =
      qowState ra rb rc wa .finished .running 2 true 1 true true
        (log ++ [cbEv rb 1, .finished 1 rb.isValid, .finished 3 true, .submitted 2,
          .deleteLater 3, .deleteLater 1]) := by
  simp [qowState, eval_deliver, eval_onFinishedSlot, eval_deleteLaterSlot, eval_emitFinished,
    eval_counter, eval_finishWith, eval_startNext_true, eval_startNext_false,
    eval_finishWithSlot, eval_start, eval_andDelete, forEach, slotsOf, cbEv, hg]

theorem qow_secondB_fail (ra rb rc : Expected Int Int) (wa : Watcher) (aw : Bool)
    (log : List Ev) (k : Nat) (hg : (aw && rb.isValid) = false) :
    deliver (k + 7) 1 (qowState ra rb rc wa .running .idle 1 aw 0 true false log) =
      qowState ra rb rc wa .finished .idle 2 false 1 false false
        (log ++ [cbEv rb 1, .finished 1 rb.isValid, .finished 3 false, .finished 4 false,
          .deleteLater 4, .deleteLater 3, .deleteLater 1]) := by
  simp [qowState, eval_deliver, eval_onFinishedSlot, eval_deleteLaterSlot, eval_emitFinished,
    eval_counter, eval_finishWith, eval_startNext_true, eval_startNext_false,
    eval_finishWithSlot, eval_start, eval_andDelete, forEach, slotsOf, cbEv, hg]

theorem qow_secondA_ok (ra rb rc : Expected Int Int) (wb : Watcher) (aw : Bool)
    (log : List Ev) (k : Nat) (hg : (aw && ra.isValid) = true) :
    deliver (k + 7) 0 (qowState ra rb rc .running wb .idle 1 aw 0 true false log) =
      qowState ra rb rc .finished wb .running 2 true 1 true true
        (log ++ [cbEv ra 0, .finished 0 ra.isValid, .finished 3 true, .submitted 2,
          .deleteLater 3, .deleteLater 0]) := by
  simp [qowState, eval_deliver, eval_onFinishedSlot, eval_deleteLaterSlot, eval_emitFinished,
    eval_counter, eval_finishWith, eval_startNext_true, eval_startNext_false,
    eval_finishWithSlot, eval_start, eval_andDelete, forEach, slotsOf, cbEv, hg]

theorem qow_secondA_fail (ra rb rc : Expected Int Int) (wb : Watcher) (aw : Bool)
    (log : List Ev) (k : Nat) (hg : (aw && ra.isValid) = false) :
    deliver (k + 7) 0 (qowState ra rb rc .running wb .idle 1 aw 0 true false log) =
      qowState ra rb rc .finished wb .idle 2 false 1 false false
        (log ++ [cbEv ra 0, .finished 0 ra.isValid, .finished 3 false, .finished 4 false,
          .deleteLater 4, .deleteLater 3, .deleteLater 0]) := by
  simp [qowState, eval_deliver, eval_onFinishedSlot, eval_deleteLaterSlot, eval_emitFinished,
    eval_counter, eval_finishWith, eval_startNext_true, eval_startNext_false,
    eval_finishWithSlot, eval_start, eval_andDelete, forEach, slotsOf, cbEv, hg]

theorem qow_thirdC (ra rb rc : Expected Int Int) (wa wb : Watcher) (cw : Nat) (aw aq : Bool)
    (log : List Ev) (k : Nat) :
    deliver (k + 4) 2 (qowState ra rb rc wa wb .running cw aw 1 aq true log) =
      qowState ra rb rc wa wb .finished cw aw 2 (aq && rc.isValid) true
        (log ++ [cbEv rc 2, .finished 2 rc.isValid, .finished 4 (aq && rc.isValid),
          .deleteLater 4, .finished 4 rc.isValid, .deleteLater 4, .deleteLater 2]) := by
  simp [qowState, eval_deliver, eval_onFinishedSlot, eval_deleteLaterSlot, eval_emitFinished,
    eval_counter, eval_finishWith, eval_startNext_true, eval_startNext_false,
    eval_finishWithSlot, eval_start, eval_andDelete, forEach, slotsOf, cbEv]

theorem pending_qowState (ra rb rc : Expected Int Int) (wa wb wc : Watcher) (cw : Nat)
    (aw : Bool) (cq : Nat) (aq sc : Bool) (log : List Ev) :
    pending (qowState ra rb rc wa wb wc cw aw cq aq sc log) =
      (if wa = .running then [0] else []) ++ (if wb = .running then [1] else []) ++
        (if wc = .running then [2] else []) := by
  cases wa <;> cases wb <;> cases wc <;> rfl

theorem emissions_cbEv (t : Nat) (r : Expected Int Int) (i : Nat) (xs : List Ev) :
    emissions t (cbEv r i :: xs) = emissions t xs := emissions_callbackEv t _ i xs

theorem submissions_cbEv (r : Expected Int Int) (i : Nat) (xs : List Ev) :
    submissions (cbEv r i :: xs) = submissions xs := submissions_callbackEv _ i xs

theorem flagOf_cons_zero (l : LeafSpec) (ls : List LeafSpec) :
    flagOf (l :: ls) 0 = l.work.isValid := by
  simp [flagOf]

theorem flagOf_cons_succ (l : LeafSpec) (ls : List LeafSpec) (i : Nat) :
    flagOf (l :: ls) (i + 1) = flagOf ls i := by
  simp [flagOf]

theorem leadingOk_le (ls : List LeafSpec) : leadingOk ls ≤ ls.length := by
  induction ls with
  | nil => simp [leadingOk]
  | cons l ls ih =>
    unfold leadingOk at ih ⊢
    rw [List.takeWhile_cons]
    split
    · simp; omega
    · simp

theorem leadingOk_ok (ls : List LeafSpec) : ∀ i, i < leadingOk ls → flagOf ls i = true := by
  induction ls with
  | nil => intro i hi; simp [leadingOk] at hi
  | cons l ls ih =>
    intro i hi
    unfold leadingOk at ih hi
    rw [List.takeWhile_cons] at hi
    by_cases hl : l.work.isValid = true
    · simp only [hl, if_true, List.length_cons] at hi
      cases i with
      | zero => rw [flagOf_cons_zero]; exact hl
      | succ i => rw [flagOf_cons_succ]; exact ih i (by omega)
    · simp [hl] at hi

theorem leadingOk_fail (ls : List LeafSpec) (h : leadingOk ls < ls.length) :
    flagOf ls (leadingOk ls) = false := by
  induction ls with
  | nil => simp [leadingOk] at h
  | cons l ls ih =>
    unfold leadingOk at ih h ⊢
    rw [List.takeWhile_cons] at h ⊢
    by_cases hl : l.work.isValid = true
    · simp only [hl, if_true, List.length_cons] at h ⊢
      rw [flagOf_cons_succ]
      exact ih (by omega)
    · have hf : l.work.isValid = false := by simpa using hl
      simp [hf, flagOf_cons_zero]

theorem all_of_leadingOk (ls : List LeafSpec) :
    ls.all (fun l => l.work.isValid) = decide (leadingOk ls = ls.length) := by
  induction ls with
  | nil => simp [leadingOk]
  | cons l ls ih =>
    unfold leadingOk at ih ⊢
    rw [List.all_cons, List.takeWhile_cons, ih]
    by_cases hl : l.work.isValid = true
    · simp [hl]
    · simp [hl]

theorem weave_run_emissions (ls : List LeafSpec) (order : List Nat) (k : Nat)
    (hN : 1 ≤ ls.length) (hperm : order.Perm (List.range ls.length)) :
    emissions ls.length (weaveRun (k + 4) ls order).log =
      [ls.all (fun l => l.work.isValid)] := by
  obtain ⟨s1, s2, s3⟩ := weave_started ls (k + 2)
  have hnd : order.Nodup := hperm.nodup_iff.mpr (List.nodup_range _)
  have hmem : ∀ d ∈ order, d < ls.length := fun d hd =>
    List.mem_range.mp (hperm.mem_iff.mp hd)
  have hlen : order.length = ls.length := by simpa using hperm.length_eq
  have hlog0 : emissions ls.length
      (start (k + 2 + 2) (weaveOf ls).1 (weaveOf ls).2).log = [] := by
    rw [s3, emissions_map_submitted]
  have := (weave_deliverAll ls k order _ 0 true _ s1 s2 hnd
    (fun d hd => ⟨hmem d hd, rfl⟩) (by omega)).2
  unfold weaveRun
  rw [this, hlog0, hlen, all_flagOf_perm ls order hperm]
  have : order ≠ [] := by
    intro h
    rw [h] at hlen
    simp at hlen
    omega
  simp [this]

theorem onDone_idle (i : Nat) (cb : Handler) (t : Bool) (st : State)
    (hf : st.fault = none) (hl : st.log = []) (hw : watcherOf st i = some .idle) :
    (AsyncTask.onDone i cb t st).fault = none ∧ (AsyncTask.onDone i cb t st).log = [] ∧
    watcherOf (AsyncTask.onDone i cb t st) i = some .idle ∧
    (AsyncTask.onDone i cb t st).objs.length = st.objs.length := by
  unfold watcherOf at hw
  unfold AsyncTask.onDone watcherOf
  cases ho : st.objs[i]? with
  | none => simp [ho] at hw
  | some ob =>
    have hlt : i < st.objs.length := by
      by_contra hc
      rw [List.getElem?_eq_none (Nat.le_of_not_lt hc)] at ho
      cases ho
    cases ob with
    | plainTask v w =>
      simp only [ho, Option.some.injEq] at hw
      subst hw
      simp [hf, hl, ho]
    | resultTask r s e w =>
      simp only [ho, Option.some.injEq] at hw
      subst hw
      simp [hf, hl, State.setObj, hlt]
    | composite c => simp [ho] at hw

theorem onError_idle (i : Nat) (cb : Handler) (st : State)
    (hf : st.fault = none) (hl : st.log = []) (hw : watcherOf st i = some .idle) :
    (AsyncTask.onError i cb st).fault = none ∧ (AsyncTask.onError i cb st).log = [] ∧
    watcherOf (AsyncTask.onError i cb st) i = some .idle ∧
    (AsyncTask.onError i cb st).objs.length = st.objs.length := by
  unfold watcherOf at hw
  unfold AsyncTask.onError watcherOf
  cases ho : st.objs[i]? with
  | none => simp [ho] at hw
  | some ob =>
    have hlt : i < st.objs.length := by
      by_contra hc
      rw [List.getElem?_eq_none (Nat.le_of_not_lt hc)] at ho
      cases ho
    cases ob with
    | plainTask v w =>
      simp only [ho, Option.some.injEq] at hw
      subst hw
      simp [hf, hl, ho]
    | resultTask r s e w =>
      simp only [ho, Option.some.injEq] at hw
      subst hw
      simp [hf, hl, State.setObj, hlt]
    | composite c => simp [ho] at hw

theorem chain_idle (calls : List BuilderCall) (b : TaskBuilder) (st : State)
    (hf : st.fault = none) (hl : st.log = []) (hw : watcherOf st b.mTask = some .idle) :
    (TaskBuilder.chain calls (b, st)).1 = b ∧
    (TaskBuilder.chain calls (b, st)).2.log = [] ∧
    (TaskBuilder.chain calls (b, st)).2.fault = none ∧
    watcherOf (TaskBuilder.chain calls (b, st)).2 b.mTask = some .idle ∧
    (TaskBuilder.chain calls (b, st)).2.objs.length = st.objs.length := by
  induction calls generalizing st with
  | nil => exact ⟨rfl, hl, hf, hw, rfl⟩
  | cons c cs ih =>
    cases c with
    | onDone cb t =>
      obtain ⟨h1, h2, h3, h4⟩ := onDone_idle b.mTask cb t st hf hl hw
      have := ih _ h1 h2 h3
      rw [h4] at this
      exact this
    | onError cb =>
      obtain ⟨h1, h2, h3, h4⟩ := onError_idle b.mTask cb st hf hl hw
      have := ih _ h1 h2 h3
      rw [h4] at this
      exact this

theorem pending_single_idle (st : State) (hlen : st.objs.length = 1)
    (hw : watcherOf st 0 = some .idle) : pending st = [] := by
  unfold pending
  unfold watcherOf at hw
  rw [hlen]
  simp only [List.range_succ, List.range_zero, List.nil_append, List.filter_cons,
    List.filter_nil]
  cases ho : st.objs[0]? with
  | none => simp [ho] at hw
  | some ob =>
    cases ob with
    | plainTask v w =>
      simp only [ho, Option.some.injEq] at hw
      subst hw
      simp
    | resultTask r s e w =>
      simp only [ho, Option.some.injEq] at hw
      subst hw
      simp
    | composite c => simp [ho] at hw

theorem length_le_of_nodup_lt (ds : List Nat) (n : Nat) (hnd : ds.Nodup)
    (hlt : ∀ d ∈ ds, d < n) : ds.length ≤ n := by
  have hsub : ds ⊆ List.range n := fun d hd => List.mem_range.mpr (hlt d hd)
  have := (List.subperm_of_subset hnd hsub).length_le
  simpa using this

theorem weave_bookkeeping (ls : List LeafSpec) (ds : List Nat) (k : Nat)
    (hnd : ds.Nodup) (hlt : ∀ d ∈ ds, d < ls.length) :
    (weaveRun (k + 4) ls ds).fault = none ∧
    compositeOf (weaveRun (k + 4) ls ds) ls.length =
      some ⟨false, List.range' 0 ls.length, ds.length, ds.all (flagOf ls)⟩ ∧
    emissions ls.length (weaveRun (k + 4) ls ds).log =
      (if ds ≠ [] ∧ ds.length = ls.length then [ds.all (flagOf ls)] else []) := by
  obtain ⟨s1, s2, s3⟩ := weave_started ls (k + 2)
  have hlen := length_le_of_nodup_lt ds ls.length hnd hlt
  have hlog0 : emissions ls.length
      (start (k + 2 + 2) (weaveOf ls).1 (weaveOf ls).2).log = [] := by
    rw [s3, emissions_map_submitted]
  obtain ⟨g1, g2⟩ := weave_deliverAll ls k ds _ 0 true _ s1 s2 hnd
    (fun d hd => ⟨hlt d hd, rfl⟩) (by omega)
  unfold weaveRun
  refine ⟨g1.fault, ?_, ?_⟩
  · unfold compositeOf
    rw [g1.comp]
    simp
  · rw [g2, hlog0]
    simp

theorem watcherOf_flat {fifo : Bool} {ls : List LeafSpec} {w : Nat → Watcher} {cnt : Nat}
    {all : Bool} {st : State} (h : FlatInv fifo ls w cnt all st) (i : Nat)
    (hi : i < ls.length) : watcherOf st i = some (w i) := by
  unfold watcherOf
  rw [h.obj i hi]
  rfl

theorem queue_final (ls : List LeafSpec) (f : Nat) (hN : 1 ≤ ls.length) :
    ∃ j, j < ls.length ∧ (j + 1 = ls.length ∨ flagOf ls j = false) ∧
      (∀ i, i < j → flagOf ls i = true) ∧ j ≤ leadingOk ls ∧
      queueSchedule ls = List.range (j + 1) ∧
      QueueInv ls j (queueRun (f + 4) ls (List.range j)) ∧
      queueRun (f + 4) ls (queueSchedule ls) =
        deliver (f + 4) j (queueRun (f + 4) ls (List.range j)) := by
  have hle := leadingOk_le ls
  have hstep : ∀ j, queueRun (f + 4) ls (List.range (j + 1)) =
      deliver (f + 4) j (queueRun (f + 4) ls (List.range j)) := by
    intro j
    unfold queueRun
    rw [List.range_succ, deliverAll_append]
    rfl
  by_cases hk : leadingOk ls < ls.length
  · have hsched : queueSchedule ls = List.range (leadingOk ls + 1) := by
      unfold queueSchedule
      rw [Nat.min_eq_left (by omega)]
    refine ⟨leadingOk ls, hk, Or.inr (leadingOk_fail ls hk), leadingOk_ok ls, le_refl _,
      hsched, queue_prefix ls f hN (leadingOk ls) hk (leadingOk_ok ls), ?_⟩
    rw [hsched, hstep]
  · obtain ⟨n, hn⟩ : ∃ n, ls.length = n + 1 := ⟨ls.length - 1, by omega⟩
    have hsched : queueSchedule ls = List.range (n + 1) := by
      unfold queueSchedule
      rw [Nat.min_eq_right (by omega), hn]
    have hok : ∀ i, i < n → flagOf ls i = true := fun i hi => leadingOk_ok ls i (by omega)
    refine ⟨n, by omega, Or.inl hn.symm, hok, by omega, hsched,
      queue_prefix ls f hN n (by omega) hok, ?_⟩
    rw [hsched, hstep]

theorem filter_idle (n : Nat) :
    (List.range n).filter (fun _ => decide (Watcher.idle = Watcher.running)) = [] := by
  simp

theorem filter_running (n : Nat) :
    (List.range n).filter (fun _ => decide (Watcher.running = Watcher.running)) =
      List.range n := by
  simp

/-! ## Claims -/

/-- C1: in a weave over N >= 1 result tasks that is started and whose children
complete once each, in any order `order` (a permutation of the children), no
completion event of the weave is raised while fewer than N children have
completed, and after all N completions the weave has raised exactly one
`finished` event, carrying the AND of the children's success flags. -/
theorem weave_and_join (ls : List LeafSpec) (order : List Nat) (fuel : Nat)
    (hN : 1 ≤ ls.length) (hperm : order.Perm (List.range ls.length)) (hfuel : 4 ≤ fuel) :
    (weaveRun fuel ls order).fault = none ∧
    (∀ k, k < ls.length →
      emissions (weaveOf ls).1 (weaveRun fuel ls (order.take k)).log = []) ∧
    emissions (weaveOf ls).1 (weaveRun fuel ls order).log =
      [ls.all (fun l => l.work.isValid)] := by
  obtain ⟨k, rfl⟩ : ∃ k, fuel = k + 4 := ⟨fuel - 4, by omega⟩
  obtain ⟨s1, s2, s3⟩ := weave_started ls (k + 2)
  have hid : (weaveOf ls).1 = ls.length := by rw [weaveOf_eq]
  have hnd : order.Nodup := hperm.nodup_iff.mpr (List.nodup_range _)
  have hmem : ∀ d ∈ order, d < ls.length := fun d hd =>
    List.mem_range.mp (hperm.mem_iff.mp hd)
  have hlen : order.length = ls.length := by simpa using hperm.length_eq
  have hlog0 : emissions ls.length
      (start (k + 2 + 2) (weaveOf ls).1 (weaveOf ls).2).log = [] := by
    rw [s3, emissions_map_submitted]
  refine ⟨?_, ?_, ?_⟩
  · exact (weave_deliverAll ls k order _ 0 true _ s1 s2 hnd
      (fun d hd => ⟨hmem d hd, rfl⟩) (by omega)).1.fault
  · intro j hj
    have hsub : (order.take j).Nodup := List.Nodup.sublist (List.take_sublist _ _) hnd
    have hl : (order.take j).length = j := by simp [hlen]; omega
    have := (weave_deliverAll ls k (order.take j) _ 0 true _ s1 s2 hsub
      (fun d hd => ⟨hmem d (List.mem_of_mem_take hd), rfl⟩) (by omega)).2
    rw [hid]
    unfold weaveRun
    rw [this, hlog0, hl]
    have : ¬ (j = ls.length) := by omega
    simp [this]
  · have := (weave_deliverAll ls k order _ 0 true _ s1 s2 hnd
      (fun d hd => ⟨hmem d hd, rfl⟩) (by omega)).2
    rw [hid]
    unfold weaveRun
    rw [this, hlog0, hlen, all_flagOf_perm ls order hperm]
    have : order ≠ [] := by
      intro h
      rw [h] at hlen
      simp at hlen
      omega
    simp [this]

/-- Witness for C1: three children completing in the order 2, 0, 1. -/
theorem weave_and_join_witness :
    emissions (weaveOf [⟨.value 1, .noop, .noop⟩, ⟨.error 2, .noop, .noop⟩,
        ⟨.value 3, .noop, .noop⟩]).1
      (weaveRun 4 [⟨.value 1, .noop, .noop⟩, ⟨.error 2, .noop, .noop⟩,
        ⟨.value 3, .noop, .noop⟩] [2, 0, 1]).log = [false] :=
  by simpa using (weave_and_join [⟨.value 1, .noop, .noop⟩, ⟨.error 2, .noop, .noop⟩,
    ⟨.value 3, .noop, .noop⟩] [2, 0, 1] 4 (by decide) (by decide) (by decide)).2.2

/-- C2: in a started queue over N >= 1 result tasks in which child `k` is the
first whose success flag is false, delivering the completions of children
`0 .. k` as they become due leaves exactly the children `0, 1, ..., k`
submitted, in that order; the queue has raised a completion event, every
completion event it raised carries `false`, and no work is in flight any more,
so no later child is ever started. -/
theorem queue_fail_fast (ls : List LeafSpec) (k fuel : Nat) (hk : k < ls.length)
    (hok : ∀ i, i < k → flagOf ls i = true) (hfail : flagOf ls k = false)
    (hfuel : 4 ≤ fuel) :
    (queueRun fuel ls (List.range (k + 1))).fault = none ∧
    submissions (queueRun fuel ls (List.range (k + 1))).log = List.range (k + 1) ∧
    emissions (queueOf ls).1 (queueRun fuel ls (List.range (k + 1))).log ≠ [] ∧
    (∀ b ∈ emissions (queueOf ls).1 (queueRun fuel ls (List.range (k + 1))).log, b = false) ∧
    pending (queueRun fuel ls (List.range (k + 1))) = [] := by
  obtain ⟨f, rfl⟩ : ∃ f, fuel = f + 4 := ⟨fuel - 4, by omega⟩
  have hid : (queueOf ls).1 = ls.length := by rw [queueOf_eq]
  have h := queue_prefix ls f (by omega) k hk hok
  obtain ⟨g1, g2, g3⟩ := queue_stop h f hk (Or.inr hfail)
  have hrun : queueRun (f + 4) ls (List.range (k + 1)) =
      deliver (f + 4) k (queueRun (f + 4) ls (List.range k)) := by
    unfold queueRun
    rw [List.range_succ, deliverAll_append]
    rfl
  rw [hrun, hid, g3, hfail]
  refine ⟨g1.fault, ?_, ?_, ?_, ?_⟩
  · rw [g2, List.range_eq_range']
  · by_cases h1 : k + 1 = ls.length <;> simp [h1]
  · intro b hb
    by_cases h1 : k + 1 = ls.length <;> simp [h1] at hb <;> exact hb
  · rw [pending_eq g1, filter_stoppedW]

/-- Witness for C2: the scenario `[A, B, C]` with B failing (N = 3, k = 1). -/
theorem queue_fail_fast_witness :
    (queueRun 4 abcLeaves (List.range (1 + 1))).fault = none ∧
    submissions (queueRun 4 abcLeaves (List.range (1 + 1))).log = List.range (1 + 1) ∧
    emissions (queueOf abcLeaves).1 (queueRun 4 abcLeaves (List.range (1 + 1))).log ≠ [] ∧
    (∀ b ∈ emissions (queueOf abcLeaves).1 (queueRun 4 abcLeaves (List.range (1 + 1))).log,
      b = false) ∧
    pending (queueRun 4 abcLeaves (List.range (1 + 1))) = [] :=
  queue_fail_fast abcLeaves 1 4 (by decide) (by decide) (by decide) (by decide)

/-- C3: in a started queue over N >= 1 result tasks that all succeed, after the
first `j < N` completions exactly the children `0 .. j` have been submitted,
child `j` alone is in flight and the queue has raised no event; the completion
of child `j` is followed in the log by `finished(true)` of that child and only
then by the submission of child `j + 1`; after the N-th completion every child
has been submitted, the queue has raised a completion event and every event it
raised carries `true`. -/
theorem queue_in_order (ls : List LeafSpec) (fuel : Nat) (hN : 1 ≤ ls.length)
    (hall : ∀ i, i < ls.length → flagOf ls i = true) (hfuel : 4 ≤ fuel) :
    (∀ j, j < ls.length →
      (queueRun fuel ls (List.range j)).fault = none ∧
      submissions (queueRun fuel ls (List.range j)).log = List.range (j + 1) ∧
      pending (queueRun fuel ls (List.range j)) = [j] ∧
      emissions (queueOf ls).1 (queueRun fuel ls (List.range j)).log = []) ∧
    (∀ j (_ : j + 1 < ls.length),
      (queueRun fuel ls (List.range (j + 1))).log =
        (queueRun fuel ls (List.range j)).log ++
          [ls[j].callbackEv j, .finished j true, .submitted (j + 1), .deleteLater j]) ∧
    (queueRun fuel ls (List.range ls.length)).fault = none ∧
    submissions (queueRun fuel ls (List.range ls.length)).log = List.range ls.length ∧
    pending (queueRun fuel ls (List.range ls.length)) = [] ∧
    emissions (queueOf ls).1 (queueRun fuel ls (List.range ls.length)).log ≠ [] ∧
    (∀ b ∈ emissions (queueOf ls).1 (queueRun fuel ls (List.range ls.length)).log,
      b = true) := by
  obtain ⟨f, rfl⟩ : ∃ f, fuel = f + 4 := ⟨fuel - 4, by omega⟩
  have hid : (queueOf ls).1 = ls.length := by rw [queueOf_eq]
  have hstep : ∀ j, queueRun (f + 4) ls (List.range (j + 1)) =
      deliver (f + 4) j (queueRun (f + 4) ls (List.range j)) := by
    intro j
    unfold queueRun
    rw [List.range_succ, deliverAll_append]
    rfl
  refine ⟨?_, ?_, ?_⟩
  · intro j hj
    have h := queue_prefix ls f hN j hj (fun i hi => hall i (by omega))
    refine ⟨h.flat.fault, ?_, ?_, ?_⟩
    · rw [h.subs, List.range_eq_range']
    · rw [pending_eq h.flat, filter_queueW]
      simp [hj]
    · rw [hid, h.emis]
  · intro j hj
    have h := queue_prefix ls f hN j (by omega) (fun i hi => hall i (by omega))
    rw [hstep j]
    exact queue_next_log h f hj (hall j (by omega))
  · obtain ⟨n, hn⟩ : ∃ n, ls.length = n + 1 := ⟨ls.length - 1, by omega⟩
    have h := queue_prefix ls f hN n (by omega) (fun i hi => hall i (by omega))
    obtain ⟨g1, g2, g3⟩ := queue_stop h f (by omega) (Or.inl hn.symm)
    have hrun := hstep n
    rw [← hn] at hrun
    rw [hrun, hid, g3, hall n (by omega)]
    refine ⟨g1.fault, ?_, ?_, ?_, ?_⟩
    · rw [g2, hn, List.range_eq_range']
    · rw [pending_eq g1, filter_stoppedW]
    · simp [hn]
    · intro b hb
      simp [hn] at hb
      exact hb

/-- Witness for C3: three succeeding children A, B, C. -/
theorem queue_in_order_witness :
    submissions (queueRun 4 okLeaves (List.range okLeaves.length)).log =
      List.range okLeaves.length ∧
    (∀ b ∈ emissions (queueOf okLeaves).1
      (queueRun 4 okLeaves (List.range okLeaves.length)).log, b = true) :=
  ⟨(queue_in_order okLeaves 4 (by decide) (by decide) (by decide)).2.2.2.1,
   (queue_in_order okLeaves 4 (by decide) (by decide) (by decide)).2.2.2.2.2.2⟩

/-- C4: a result task built by `task(work)`, with handlers registered through
`onDone` and `onError`, started, and whose work becomes ready, has called
exactly one handler exactly once: the `onDone` handler with the value if the
outcome is valid, the `onError` handler with the error otherwise. -/
theorem result_task_one_handler (r : Expected Int Int) (hd he : Handler) (k : Nat) :
    handlerCalls 0
      (deliver (k + 1) 0 (start (k + 1) 0
        (AsyncTask.onError 0 he (AsyncTask.onDone 0 hd true
          (resultTask r .noop .noop {}).2)))).log =
      [match r with
       | .value v => Ev.successCallback 0 hd v
       | .error e => Ev.failureCallback 0 he e] ∧
    (deliver (k + 1) 0 (start (k + 1) 0
        (AsyncTask.onError 0 he (AsyncTask.onDone 0 hd true
          (resultTask r .noop .noop {}).2)))).fault = none := by
  cases r <;>
    simp [deliver, start, AsyncTask.onError, AsyncTask.onDone, resultTask, State.alloc,
      State.setObj, State.emitEv, slotsOf, forEach, runWSlot, onFinished, emitFinished,
      handlerCalls, Expected.isValid]

/-- C9: in `queue(weave(A, B), C)` over result tasks, started, with A and B
completing in either order (`first`, `second`): C is not submitted while only one
of A, B has completed; if A or B fails, the queue raises `finished(false)` when
the second of them completes, C is never submitted and nothing is in flight; if
both succeed, C is submitted at that point, the queue raises nothing before C
completes, and every event it raises then carries C's flag. -/
theorem queue_of_weave (ra rb rc : Expected Int Int) (first second fuel : Nat)
    (horder : (first = 0 ∧ second = 1) ∨ (first = 1 ∧ second = 0)) (hfuel : 7 ≤ fuel) :
    submissions (qowRun fuel ra rb rc []).log = [0, 1] ∧
    submissions (qowRun fuel ra rb rc [first]).log = [0, 1] ∧
    emissions 4 (qowRun fuel ra rb rc [first]).log = [] ∧
    ((ra.isValid && rb.isValid) = false →
      emissions 4 (qowRun fuel ra rb rc [first, second]).log = [false] ∧
      submissions (qowRun fuel ra rb rc [first, second]).log = [0, 1] ∧
      pending (qowRun fuel ra rb rc [first, second]) = [] ∧
      (qowRun fuel ra rb rc [first, second]).fault = none) ∧
    ((ra.isValid && rb.isValid) = true →
      emissions 4 (qowRun fuel ra rb rc [first, second]).log = [] ∧
      submissions (qowRun fuel ra rb rc [first, second]).log = [0, 1, 2] ∧
      pending (qowRun fuel ra rb rc [first, second]) = [2] ∧
      emissions 4 (qowRun fuel ra rb rc [first, second, 2]).log ≠ [] ∧
      (∀ b ∈ emissions 4 (qowRun fuel ra rb rc [first, second, 2]).log, b = rc.isValid) ∧
      submissions (qowRun fuel ra rb rc [first, second, 2]).log = [0, 1, 2] ∧
      pending (qowRun fuel ra rb rc [first, second, 2]) = [] ∧
      (qowRun fuel ra rb rc [first, second, 2]).fault = none) := by
  obtain ⟨k, rfl⟩ : ∃ k, fuel = k + 7 := ⟨fuel - 7, by omega⟩
  have hs := qow_start ra rb rc (k + 4)
  have hlog : ∀ (t : Nat) (xs ys : List Ev), emissions t (xs ++ ys) =
      emissions t xs ++ emissions t ys := emissions_append
  rcases horder with ⟨rfl, rfl⟩ | ⟨rfl, rfl⟩
  · have h1 := qow_firstA ra rb rc .running [.submitted 0, .submitted 1] (k + 3)
    refine ⟨?_, ?_, ?_, ?_, ?_⟩
    · simp only [qowRun, deliverAll_nil, hs]
      rfl
    · simp only [qowRun, deliverAll_cons, deliverAll_nil, hs, h1]
      simp [qowState, submissions_append, submissions_cbEv, submissions_cons_finished,
        submissions_cons_deleteLater, submissions_cons_submitted, submissions_nil]
    · simp only [qowRun, deliverAll_cons, deliverAll_nil, hs, h1]
      simp [qowState, emissions_append, emissions_cbEv, emissions_cons_finished,
        emissions_cons_deleteLater, emissions_cons_submitted, emissions_nil]
    · intro hv
      have h2 := qow_secondB_fail ra rb rc .finished ra.isValid
        ([.submitted 0, .submitted 1] ++ [cbEv ra 0, .finished 0 ra.isValid, .deleteLater 0])
        k hv
      simp only [qowRun, deliverAll_cons, deliverAll_nil, hs, h1, h2, pending_qowState]
      simp [qowState, emissions_append, emissions_cbEv, emissions_cons_finished,
        emissions_cons_deleteLater, emissions_cons_submitted, emissions_nil,
        submissions_append, submissions_cbEv, submissions_cons_finished,
        submissions_cons_deleteLater, submissions_cons_submitted, submissions_nil]
    · intro hv
      have h2 := qow_secondB_ok ra rb rc .finished ra.isValid
        ([.submitted 0, .submitted 1] ++ [cbEv ra 0, .finished 0 ra.isValid, .deleteLater 0])
        k hv
      have h3 := qow_thirdC ra rb rc .finished .finished 2 true true
        ([.submitted 0, .submitted 1] ++ [cbEv ra 0, .finished 0 ra.isValid, .deleteLater 0] ++
          [cbEv rb 1, .finished 1 rb.isValid, .finished 3 true, .submitted 2,
            .deleteLater 3, .deleteLater 1]) (k + 3)
      simp only [qowRun, deliverAll_cons, deliverAll_nil, hs, h1, h2, h3, pending_qowState]
      simp [qowState, emissions_append, emissions_cbEv, emissions_cons_finished,
        emissions_cons_deleteLater, emissions_cons_submitted, emissions_nil,
        submissions_append, submissions_cbEv, submissions_cons_finished,
        submissions_cons_deleteLater, submissions_cons_submitted, submissions_nil]
  · have h1 := qow_firstB ra rb rc .running [.submitted 0, .submitted 1] (k + 3)
    refine ⟨?_, ?_, ?_, ?_, ?_⟩
    · simp only [qowRun, deliverAll_nil, hs]
      rfl
    · simp only [qowRun, deliverAll_cons, deliverAll_nil, hs, h1]
      simp [qowState, submissions_append, submissions_cbEv, submissions_cons_finished,
        submissions_cons_deleteLater, submissions_cons_submitted, submissions_nil]
    · simp only [qowRun, deliverAll_cons, deliverAll_nil, hs, h1]
      simp [qowState, emissions_append, emissions_cbEv, emissions_cons_finished,
        emissions_cons_deleteLater, emissions_cons_submitted, emissions_nil]
    · intro hv
      rw [Bool.and_comm] at hv
      have h2 := qow_secondA_fail ra rb rc .finished rb.isValid
        ([.submitted 0, .submitted 1] ++ [cbEv rb 1, .finished 1 rb.isValid, .deleteLater 1])
        k hv
      simp only [qowRun, deliverAll_cons, deliverAll_nil, hs, h1, h2, pending_qowState]
      simp [qowState, emissions_append, emissions_cbEv, emissions_cons_finished,
        emissions_cons_deleteLater, emissions_cons_submitted, emissions_nil,
        submissions_append, submissions_cbEv, submissions_cons_finished,
        submissions_cons_deleteLater, submissions_cons_submitted, submissions_nil]
    · intro hv
      rw [Bool.and_comm] at hv
      have h2 := qow_secondA_ok ra rb rc .finished rb.isValid
        ([.submitted 0, .submitted 1] ++ [cbEv rb 1, .finished 1 rb.isValid, .deleteLater 1])
        k hv
      have h3 := qow_thirdC ra rb rc .finished .finished 2 true true
        ([.submitted 0, .submitted 1] ++ [cbEv rb 1, .finished 1 rb.isValid, .deleteLater 1] ++
          [cbEv ra 0, .finished 0 ra.isValid, .finished 3 true, .submitted 2,
            .deleteLater 3, .deleteLater 0]) (k + 3)
      simp only [qowRun, deliverAll_cons, deliverAll_nil, hs, h1, h2, h3, pending_qowState]
      simp [qowState, emissions_append, emissions_cbEv, emissions_cons_finished,
        emissions_cons_deleteLater, emissions_cons_submitted, emissions_nil,
        submissions_append, submissions_cbEv, submissions_cons_finished,
        submissions_cons_deleteLater, submissions_cons_submitted, submissions_nil]

/-- Witness for C9: A succeeds, B fails, A completes first. -/
theorem queue_of_weave_witness :
    emissions 4 (qowRun 7 (.value 1) (.error 2) (.value 3) [0, 1]).log = [false] :=
  ((queue_of_weave (.value 1) (.error 2) (.value 3) 0 1 7 (Or.inl ⟨rfl, rfl⟩)
    (by decide)).2.2.2.1 rfl).1

/-- C5: a queue whose last child is reached raises its completion event twice:
for N >= 1 children of which the first N-1 succeed, the run over all N
completions leaves exactly two `finished` events of the queue in the log, both
with the flag of the last child (once from the inherited counting lambda, once
from the `finishWith` connection on the last child). -/
theorem queue_completes_twice (ls : List LeafSpec) (fuel : Nat) (hN : 1 ≤ ls.length)
    (hok : ∀ i, i + 1 < ls.length → flagOf ls i = true) (hfuel : 4 ≤ fuel) :
    emissions (queueOf ls).1 (queueRun fuel ls (List.range ls.length)).log =
      [flagOf ls (ls.length - 1), flagOf ls (ls.length - 1)] := by
  obtain ⟨f, rfl⟩ : ∃ f, fuel = f + 4 := ⟨fuel - 4, by omega⟩
  obtain ⟨n, hn⟩ : ∃ n, ls.length = n + 1 := ⟨ls.length - 1, by omega⟩
  have hid : (queueOf ls).1 = ls.length := by rw [queueOf_eq]
  have h := queue_prefix ls f hN n (by omega) (fun i hi => hok i (by omega))
  obtain ⟨_, _, g3⟩ := queue_stop h f (by omega) (Or.inl hn.symm)
  have hrun : queueRun (f + 4) ls (List.range ls.length) =
      deliver (f + 4) n (queueRun (f + 4) ls (List.range n)) := by
    unfold queueRun
    rw [hn, List.range_succ, deliverAll_append]
    rfl
  rw [hrun, hid, g3]
  simp [hn]

/-- Witness for C5: the queue over one succeeding child raises `finished(true)`
twice. -/
theorem queue_completes_twice_witness :
    emissions (queueOf [⟨.value 1, .noop, .noop⟩]).1
      (queueRun 4 [⟨.value 1, .noop, .noop⟩] (List.range 1)).log = [true, true] :=
  queue_completes_twice [⟨.value 1, .noop, .noop⟩] 4 (by decide)
    (fun i hi => absurd hi (by simp)) (by decide)

/-- C6: `start()` on a weave without children changes nothing: no event is
raised, nothing is in flight, so the weave never completes. -/
theorem weave_empty_never_completes (k : Nat) :
    start (k + 1) (weaveOf []).1 (weaveOf []).2 = (weaveOf []).2 ∧
    emissions (weaveOf []).1 (start (k + 1) (weaveOf []).1 (weaveOf []).2).log = [] ∧
    pending (start (k + 1) (weaveOf []).1 (weaveOf []).2) = [] := by
  have h : start (k + 1) (weaveOf []).1 (weaveOf []).2 = (weaveOf []).2 := by
    simp [weaveOf, spawn, weave, State.alloc, CompositeTask.ctor, forEach, start]
  rw [h]
  exact ⟨rfl, rfl, rfl⟩

/-- C7: `start()` on a queue without children raises `finished(true)`, requests
its deletion and then still evaluates `mTasks.first()` on the empty vector. -/
theorem queue_empty_reaches_first (k : Nat) :
    (start (k + 3) (queueOf []).1 (queueOf []).2).log =
      [.finished 0 true, .deleteLater 0] ∧
    (start (k + 3) (queueOf []).1 (queueOf []).2).fault = some (.firstOfEmpty 0) := by
  have h : (queueOf []) = (0, ⟨[.composite ⟨true, [], 0, true⟩], [], [], [], none⟩) := rfl
  rw [h]
  simp [eval_start, eval_finishWith, eval_emitFinished, eval_andDelete, eval_andFail,
    slotsOf, forEach]

/-- C8: a plain task that is started and whose work completes requests its own
deletion and raises no `finished(bool)` event; a weave over one plain task has
then raised nothing either, with nothing left in flight. -/
theorem plain_task_raises_nothing (v : Int) (k : Nat) :
    (deliver (k + 1) 0 (start (k + 1) 0 (plainTask v {}).2)).log =
      [.submitted 0, .deleteLater 0] ∧
    (deliver (k + 1) 0 (start (k + 1) 0 (plainTask v {}).2)).fault = none ∧
    (deliver (k + 2) 0 (start (k + 2) 1 (weave [0] (plainTask v {}).2).2)).log =
      [.submitted 0, .deleteLater 0] ∧
    pending (deliver (k + 2) 0 (start (k + 2) 1 (weave [0] (plainTask v {}).2).2)) = [] ∧
    (deliver (k + 2) 0 (start (k + 2) 1 (weave [0] (plainTask v {}).2).2)).fault = none := by
  have h1 : (plainTask v {}).2 = ⟨[.plainTask v .idle], [], [], [], none⟩ := rfl
  have h2 : (weave [0] (plainTask v {}).2).2 =
      ⟨[.plainTask v .idle, .composite ⟨false, [0], 0, true⟩], [(0, .counter 1)], [], [],
        none⟩ := rfl
  rw [h2, h1]
  simp [eval_start, eval_deliver, eval_deleteLaterSlot, slotsOf, forEach, pending,
    List.range_succ]

/-- C10: in `weave(queue(A), B)` with A succeeding and B failing, once A has
completed the weave has raised `finished(true)` while B is still in flight; when
B completes it raises a second event, `finished(false)`. -/
theorem weave_of_queue_completes_early :
    emissions 3 (deliver 8 0 (start 8 3 (weaveOfQueue (.value 1) (.error 2)))).log = [true] ∧
    pending (deliver 8 0 (start 8 3 (weaveOfQueue (.value 1) (.error 2)))) = [2] ∧
    emissions 3 (deliver 8 2 (deliver 8 0 (start 8 3
      (weaveOfQueue (.value 1) (.error 2))))).log = [true, false] ∧
    (deliver 8 2 (deliver 8 0 (start 8 3 (weaveOfQueue (.value 1) (.error 2))))).fault = none := by
  decide

/-- C11: in `queue(queue(A), B)` with A succeeding, started once, the completion
of A makes the inner queue raise `finished(true)` twice, and the start-next
lambda of the outer queue calls `B->start()` each time: the work of B is
submitted twice (and the outer queue completes before B does). -/
theorem nested_queue_starts_child_twice :
    submissions (deliver 8 0 (start 8 3 (queueOfQueue (.value 1) (.value 2)))).log =
      [0, 2, 2] ∧
    emissions 1 (deliver 8 0 (start 8 3 (queueOfQueue (.value 1) (.value 2)))).log =
      [true, true] ∧
    emissions 3 (deliver 8 0 (start 8 3 (queueOfQueue (.value 1) (.value 2)))).log = [true] ∧
    (deliver 8 0 (start 8 3 (queueOfQueue (.value 1) (.value 2)))).fault = none := by
  decide

/-- C12: a result task, with whatever handlers are stored (the defaults
included), started and whose work becomes ready, logs exactly: the submission,
the call of the selected handler, one `finished` event whose flag is `isValid()`
of the outcome, and its `deleteLater()`, in this order. -/
theorem result_task_surfaces_outcome (r : Expected Int Int) (hd he : Handler) (k : Nat) :
    (deliver (k + 1) 0 (start (k + 1) 0 (resultTask r hd he {}).2)).log =
      [.submitted 0, LeafSpec.callbackEv ⟨r, hd, he⟩ 0, .finished 0 r.isValid,
        .deleteLater 0] ∧
    emissions 0 (deliver (k + 1) 0 (start (k + 1) 0 (resultTask r hd he {}).2)).log =
      [r.isValid] ∧
    (deliver (k + 1) 0 (start (k + 1) 0 (resultTask r hd he {}).2)).fault = none := by
  have h : (resultTask r hd he {}).2 = ⟨[.resultTask r hd he .idle], [], [], [], none⟩ := rfl
  rw [h]
  simp [eval_start, eval_deliver, eval_onFinishedSlot, eval_deleteLaterSlot,
    eval_emitFinished, slotsOf, forEach, emissions_callbackEv, emissions_cons_finished,
    emissions_cons_deleteLater, emissions_cons_submitted, emissions_nil]

/-- C13: in `queue(A)` with A succeeding, the queue's log reads `finished(true)`,
`deleteLater()`, `finished(true)`, `deleteLater()`: a completion event is raised
after the disposal was requested, and the disposal is requested twice. -/
theorem queue_emits_after_delete_request :
    (queueRun 4 [⟨.value 1, .noop, .noop⟩] [0]).log =
      [.submitted 0, .successCallback 0 .noop 1, .finished 0 true,
        .finished 1 true, .deleteLater 1, .finished 1 true, .deleteLater 1,
        .deleteLater 0] := by
  decide

/-- C14: for N >= 1 result tasks with fixed outcomes, the queue over them, run
until nothing is in flight, has submitted only the children up to the first
failing one, has raised a completion event, and every completion event it raised
carries the AND of all N flags; the weave over the same children, run over all N
completions, raises exactly that flag. -/
theorem queue_mirrors_and (ls : List LeafSpec) (fuel : Nat) (hN : 1 ≤ ls.length)
    (hfuel : 4 ≤ fuel) :
    emissions (queueOf ls).1 (queueRun fuel ls (queueSchedule ls)).log ≠ [] ∧
    (∀ b ∈ emissions (queueOf ls).1 (queueRun fuel ls (queueSchedule ls)).log,
      b = ls.all (fun l => l.work.isValid)) ∧
    submissions (queueRun fuel ls (queueSchedule ls)).log = queueSchedule ls ∧
    pending (queueRun fuel ls (queueSchedule ls)) = [] ∧
    emissions (weaveOf ls).1 (weaveRun fuel ls (List.range ls.length)).log =
      [ls.all (fun l => l.work.isValid)] := by
  obtain ⟨f, rfl⟩ : ∃ f, fuel = f + 4 := ⟨fuel - 4, by omega⟩
  have hid : (queueOf ls).1 = ls.length := by rw [queueOf_eq]
  have hwid : (weaveOf ls).1 = ls.length := by rw [weaveOf_eq]
  have hle := leadingOk_le ls
  have hstep : ∀ j, queueRun (f + 4) ls (List.range (j + 1)) =
      deliver (f + 4) j (queueRun (f + 4) ls (List.range j)) := by
    intro j
    unfold queueRun
    rw [List.range_succ, deliverAll_append]
    rfl
  have hw := weave_run_emissions ls (List.range ls.length) f hN (List.Perm.refl _)
  rw [hwid, hw, hid, all_of_leadingOk]
  by_cases hk : leadingOk ls < ls.length
  · have hsched : queueSchedule ls = List.range (leadingOk ls + 1) := by
      unfold queueSchedule
      rw [Nat.min_eq_left (by omega)]
    have h := queue_prefix ls f hN (leadingOk ls) hk (leadingOk_ok ls)
    have hfail := leadingOk_fail ls hk
    obtain ⟨g1, g2, g3⟩ := queue_stop h f hk (Or.inr hfail)
    have hne : ¬ leadingOk ls = ls.length := by omega
    rw [hsched, hstep, g3, g2, hfail, pending_eq g1, filter_stoppedW]
    refine ⟨?_, ?_, ?_, rfl, rfl⟩
    · by_cases h1 : leadingOk ls + 1 = ls.length <;> simp [h1]
    · intro b hb
      by_cases h1 : leadingOk ls + 1 = ls.length <;> simp [h1] at hb <;> simp [hb, hne]
    · rw [List.range_eq_range']
  · have hkeq : leadingOk ls = ls.length := by omega
    obtain ⟨n, hn⟩ : ∃ n, ls.length = n + 1 := ⟨ls.length - 1, by omega⟩
    have hsched : queueSchedule ls = List.range (n + 1) := by
      unfold queueSchedule
      rw [hkeq, Nat.min_eq_right (by omega), hn]
    have h := queue_prefix ls f hN n (by omega)
      (fun i hi => leadingOk_ok ls i (by omega))
    obtain ⟨g1, g2, g3⟩ := queue_stop h f (by omega) (Or.inl hn.symm)
    have hflag : flagOf ls n = true := leadingOk_ok ls n (by omega)
    rw [hsched, hstep, g3, g2, hflag, pending_eq g1, filter_stoppedW]
    refine ⟨?_, ?_, ?_, rfl, rfl⟩
    · simp [hn]
    · intro b hb
      simp [hn] at hb
      simp [hb, hkeq]
    · rw [List.range_eq_range']

/-- Witness for C14: the children `[A, B, C]` with B failing. -/
theorem queue_mirrors_and_witness :
    submissions (queueRun 4 abcLeaves (queueSchedule abcLeaves)).log =
      queueSchedule abcLeaves ∧
    emissions (weaveOf abcLeaves).1 (weaveRun 4 abcLeaves (List.range abcLeaves.length)).log =
      [abcLeaves.all (fun l => l.work.isValid)] :=
  ⟨(queue_mirrors_and abcLeaves 4 (by decide) (by decide)).2.2.1,
   (queue_mirrors_and abcLeaves 4 (by decide) (by decide)).2.2.2.2⟩

/-- C15: in a weave over N >= 2 result tasks, after one child has completed
with `finished(false)` and no other child has completed, the weave has raised no
completion event: it waits for the remaining children. -/
theorem weave_waits_after_failure (ls : List LeafSpec) (d fuel : Nat) (hN : 2 ≤ ls.length)
    (hd : d < ls.length) (hfail : flagOf ls d = false) (hfuel : 4 ≤ fuel) :
    emissions (weaveOf ls).1 (weaveRun fuel ls [d]).log = [] ∧
    emissions d (weaveRun fuel ls [d]).log = [false] ∧
    (weaveRun fuel ls [d]).fault = none := by
  obtain ⟨k, rfl⟩ : ∃ k, fuel = k + 4 := ⟨fuel - 4, by omega⟩
  obtain ⟨s1, s2, s3⟩ := weave_started ls (k + 2)
  have hid : (weaveOf ls).1 = ls.length := by rw [weaveOf_eq]
  obtain ⟨g1, _, g3⟩ := weave_step s1 s2 k d hd rfl
  have hrun : weaveRun (k + 4) ls [d] =
      deliver (k + 4) d (start (k + 2 + 2) (weaveOf ls).1 (weaveOf ls).2) := rfl
  have hdn : ¬ d = ls.length := by omega
  have hc : ¬ ls.length ≤ 0 + 1 := by omega
  have hft := g1.fault
  rw [hrun, g3, s3, hfail]
  refine ⟨?_, ?_, hft⟩
  · rw [hid]
    simp [emissions_append, emissions_map_submitted, emissions_callbackEv,
      emissions_cons_finished, emissions_cons_deleteLater, emissions_nil, hdn, hc]
  · simp [emissions_append, emissions_map_submitted, emissions_callbackEv,
      emissions_cons_finished, emissions_cons_deleteLater, emissions_nil, hc]

/-- Witness for C15: `weave(A, B, C)` with B failing and completing first. -/
theorem weave_waits_after_failure_witness :
    emissions (weaveOf abcLeaves).1 (weaveRun 4 abcLeaves [1]).log = [] ∧
    emissions 1 (weaveRun 4 abcLeaves [1]).log = [false] ∧
    (weaveRun 4 abcLeaves [1]).fault = none :=
  weave_waits_after_failure abcLeaves 1 4 (by decide) (by decide) (by decide) (by decide)

/-- C16: for every work callable and every chain of `onDone` / `onError` calls
on the builder made by `task(work)`: every call returns the same builder, `get()`
returns the one task that was constructed, no event at all has happened (in
particular no work was submitted), the task's watcher is still idle, and no
further object was created. -/
theorem builder_performs_no_work (work : Work) (calls : List BuilderCall) :
    (TaskBuilder.chain calls (task work {})).1 = (task work {}).1 ∧
    (TaskBuilder.chain calls (task work {})).1.get = 0 ∧
    (TaskBuilder.chain calls (task work {})).2.log = [] ∧
    submissions (TaskBuilder.chain calls (task work {})).2.log = [] ∧
    (TaskBuilder.chain calls (task work {})).2.fault = none ∧
    watcherOf (TaskBuilder.chain calls (task work {})).2 0 = some .idle ∧
    pending (TaskBuilder.chain calls (task work {})).2 = [] ∧
    (TaskBuilder.chain calls (task work {})).2.objs.length = 1 := by
  have h0 : (task work {}).1 = ⟨0⟩ := by cases work <;> rfl
  have hst : task work {} = (⟨0⟩, (task work {}).2) := by cases work <;> rfl
  have hf : (task work {}).2.fault = none := by cases work <;> rfl
  have hl : (task work {}).2.log = [] := by cases work <;> rfl
  have hw : watcherOf (task work {}).2 0 = some .idle := by cases work <;> rfl
  have hlen : (task work {}).2.objs.length = 1 := by cases work <;> rfl
  obtain ⟨c1, c2, c3, c4, c5⟩ := chain_idle calls ⟨0⟩ (task work {}).2 hf hl hw
  rw [← hst] at c1 c2 c3 c4 c5
  rw [hlen] at c5
  exact ⟨by rw [c1, h0], by rw [c1]; rfl, c2, by rw [c2]; rfl, c3, c4,
    pending_single_idle _ c5 c4, c5⟩

/-- C23: for a weave over N >= 1 result tasks, in the state reached after
`start()` and the completions `ds` (distinct children, each at most once): the
counter equals the number of completions processed and is at most N, the
accumulator is the AND of the flags processed, and the weave has raised its
completion event exactly when the counter has reached N; with one more
completion the counter grows by one. For the weave without children the counter
equals N from construction on and no completion event is ever raised. -/
theorem weave_bookkeeping_invariant (ls : List LeafSpec) (ds : List Nat) (fuel : Nat)
    (hN : 1 ≤ ls.length) (hnd : ds.Nodup) (hlt : ∀ d ∈ ds, d < ls.length)
    (hfuel : 4 ≤ fuel) :
    (weaveRun fuel ls ds).fault = none ∧
    compositeOf (weaveRun fuel ls ds) (weaveOf ls).1 =
      some ⟨false, List.range' 0 ls.length, ds.length, ds.all (flagOf ls)⟩ ∧
    ds.length ≤ ls.length ∧
    (emissions (weaveOf ls).1 (weaveRun fuel ls ds).log ≠ [] ↔ ds.length = ls.length) ∧
    (emissions (weaveOf ls).1 (weaveRun fuel ls ds).log).length ≤ 1 ∧
    (∀ d, d ∉ ds → d < ls.length →
      compositeOf (weaveRun fuel ls (ds ++ [d])) (weaveOf ls).1 =
        some ⟨false, List.range' 0 ls.length, ds.length + 1,
          ds.all (flagOf ls) && flagOf ls d⟩) ∧
    compositeOf (start fuel (weaveOf []).1 (weaveOf []).2) (weaveOf []).1 =
      some ⟨false, [], 0, true⟩ ∧
    emissions (weaveOf []).1 (start fuel (weaveOf []).1 (weaveOf []).2).log = [] := by
  obtain ⟨k, rfl⟩ : ∃ k, fuel = k + 4 := ⟨fuel - 4, by omega⟩
  have hid : (weaveOf ls).1 = ls.length := by rw [weaveOf_eq]
  obtain ⟨b1, b2, b3⟩ := weave_bookkeeping ls ds k hnd hlt
  have hlen := length_le_of_nodup_lt ds ls.length hnd hlt
  rw [hid, b3]
  refine ⟨b1, b2, hlen, ?_, ?_, ?_, ?_, ?_⟩
  · by_cases h : ds.length = ls.length
    · have : ds ≠ [] := by
        intro e
        rw [e] at h
        simp at h
        omega
      simp [h, this]
    · simp [h]
  · split <;> simp
  · intro d hd hdl
    have hnd' : (ds ++ [d]).Nodup := by
      rw [List.nodup_append]
      refine ⟨hnd, by simp, ?_⟩
      intro a ha hb
      simp at hb
      subst hb
      exact hd ha
    have hlt' : ∀ e ∈ ds ++ [d], e < ls.length := by
      intro e he
      rcases List.mem_append.mp he with h | h
      · exact hlt e h
      · simp at h
        subst h
        exact hdl
    have := (weave_bookkeeping ls (ds ++ [d]) k hnd' hlt').2.1
    rw [this]
    simp
  · have h : start (k + 4) (weaveOf []).1 (weaveOf []).2 = (weaveOf []).2 := by
      simp [weaveOf, spawn, weave, State.alloc, CompositeTask.ctor, forEach, start]
    rw [h]
    rfl
  · have h : start (k + 4) (weaveOf []).1 (weaveOf []).2 = (weaveOf []).2 := by
      simp [weaveOf, spawn, weave, State.alloc, CompositeTask.ctor, forEach, start]
    rw [h]
    rfl

/-- Witness for C23: `weave(A, B, C)` after the completions of C and A. -/
theorem weave_bookkeeping_invariant_witness :
    compositeOf (weaveRun 4 abcLeaves [2, 0]) (weaveOf abcLeaves).1 =
      some ⟨false, List.range' 0 abcLeaves.length, [2, 0].length,
        [2, 0].all (flagOf abcLeaves)⟩ ∧
    emissions (weaveOf []).1 (start 4 (weaveOf []).1 (weaveOf []).2).log = [] :=
  ⟨(weave_bookkeeping_invariant abcLeaves [2, 0] 4 (by decide) (by decide) (by decide)
      (by decide)).2.1,
   (weave_bookkeeping_invariant abcLeaves [2, 0] 4 (by decide) (by decide) (by decide)
      (by decide)).2.2.2.2.2.2.2⟩

/-- C24: for a queue over N >= 1 result tasks started once: while the first `m`
children have completed (all with success) and the run goes on, exactly child
`m` is in flight, the children submitted so far are `0 .. m` in order, and the
children before `m` have completed with success; when the run stops nothing is in
flight and the children submitted are a prefix of the list; before `start()`
nothing is submitted. -/
theorem queue_in_flight_invariant (ls : List LeafSpec) (fuel : Nat) (hN : 1 ≤ ls.length)
    (hfuel : 4 ≤ fuel) :
    (queueOf ls).2.log = [] ∧ pending (queueOf ls).2 = [] ∧
    (∀ m, m ≤ leadingOk ls → m < ls.length →
      (queueRun fuel ls (List.range m)).fault = none ∧
      pending (queueRun fuel ls (List.range m)) = [m] ∧
      submissions (queueRun fuel ls (List.range m)).log = List.range (m + 1) ∧
      (∀ i, i < m → flagOf ls i = true ∧
        watcherOf (queueRun fuel ls (List.range m)) i = some .finished)) ∧
    (queueRun fuel ls (queueSchedule ls)).fault = none ∧
    pending (queueRun fuel ls (queueSchedule ls)) = [] ∧
    submissions (queueRun fuel ls (queueSchedule ls)).log = queueSchedule ls ∧
    (queueSchedule ls).length ≤ ls.length := by
  obtain ⟨f, rfl⟩ : ∃ f, fuel = f + 4 := ⟨fuel - 4, by omega⟩
  obtain ⟨hinv, _, hlog⟩ := queueOf_inv ls
  refine ⟨hlog, ?_, ?_, ?_⟩
  · rw [pending_eq hinv, filter_idle]
  · intro m hm hml
    have hok : ∀ i, i < m → flagOf ls i = true := fun i hi => leadingOk_ok ls i (by omega)
    have h := queue_prefix ls f hN m hml hok
    refine ⟨h.flat.fault, ?_, ?_, ?_⟩
    · rw [pending_eq h.flat, filter_queueW]
      simp [hml]
    · rw [h.subs, List.range_eq_range']
    · intro i hi
      refine ⟨hok i hi, ?_⟩
      rw [watcherOf_flat h.flat i (by omega)]
      simp [queueW, hi]
  · obtain ⟨j, hj, hstop, _, _, hsched, hq, hrun⟩ := queue_final ls f hN
    obtain ⟨g1, g2, _⟩ := queue_stop hq f hj hstop
    rw [hrun]
    refine ⟨g1.fault, ?_, ?_, ?_⟩
    · rw [pending_eq g1, filter_stoppedW]
    · rw [g2, hsched, List.range_eq_range']
    · rw [hsched]
      simp
      omega

/-- Witness for C24: the queue over `[A, B, C]` with B failing. -/
theorem queue_in_flight_invariant_witness :
    (queueOf abcLeaves).2.log = [] ∧
    pending (queueRun 4 abcLeaves (queueSchedule abcLeaves)) = [] ∧
    submissions (queueRun 4 abcLeaves (queueSchedule abcLeaves)).log =
      queueSchedule abcLeaves :=
  ⟨(queue_in_flight_invariant abcLeaves 4 (by decide) (by decide)).1,
   (queue_in_flight_invariant abcLeaves 4 (by decide) (by decide)).2.2.2.2.1,
   (queue_in_flight_invariant abcLeaves 4 (by decide) (by decide)).2.2.2.2.2.1⟩

/-- C25: constructing a weave over any result tasks submits nothing and leaves
nothing in flight; `start()` on it submits every child exactly once, in list
order, whatever the children's outcomes, and raises no other event. -/
theorem weave_starts_all (ls : List LeafSpec) (fuel : Nat) (hfuel : 2 ≤ fuel) :
    (weaveOf ls).2.log = [] ∧ pending (weaveOf ls).2 = [] ∧
    (start fuel (weaveOf ls).1 (weaveOf ls).2).log =
      (List.range ls.length).map Ev.submitted ∧
    submissions (start fuel (weaveOf ls).1 (weaveOf ls).2).log = List.range ls.length ∧
    pending (start fuel (weaveOf ls).1 (weaveOf ls).2) = List.range ls.length ∧
    (start fuel (weaveOf ls).1 (weaveOf ls).2).fault = none := by
  obtain ⟨k, rfl⟩ : ∃ k, fuel = k + 2 := ⟨fuel - 2, by omega⟩
  have hinv := weaveOf_inv ls
  obtain ⟨s1, _, s3⟩ := weave_started ls k
  refine ⟨by rw [weaveOf_eq], ?_, ?_, ?_, ?_, s1.fault⟩
  · rw [pending_eq hinv, filter_idle]
  · rw [s3, List.range_eq_range']
  · rw [s3, submissions_map_submitted, List.range_eq_range']
  · rw [pending_eq s1, filter_running]

/-- Witness for C25: `weave(A, B, C)` with B failing. -/
theorem weave_starts_all_witness :
    submissions (start 2 (weaveOf abcLeaves).1 (weaveOf abcLeaves).2).log =
      List.range abcLeaves.length :=
  (weave_starts_all abcLeaves 2 (by decide)).2.2.2.1

/-- C26: for a queue over N >= 1 result tasks run until nothing is in flight,
any two completion events it raised carry the same flag; when the first N-1
children succeed, the event from the inherited counting lambda and the one
forwarded from the last child both carry the last child's flag, which is also
the final value of `mAllSucceeded`. -/
theorem queue_flags_agree (ls : List LeafSpec) (fuel : Nat) (hN : 1 ≤ ls.length)
    (hfuel : 4 ≤ fuel) :
    (∀ a ∈ emissions (queueOf ls).1 (queueRun fuel ls (queueSchedule ls)).log,
      ∀ b ∈ emissions (queueOf ls).1 (queueRun fuel ls (queueSchedule ls)).log, a = b) ∧
    ((∀ i, i + 1 < ls.length → flagOf ls i = true) →
      emissions (queueOf ls).1 (queueRun fuel ls (queueSchedule ls)).log =
        [flagOf ls (ls.length - 1), flagOf ls (ls.length - 1)] ∧
      (compositeOf (queueRun fuel ls (queueSchedule ls)) (queueOf ls).1).map
        (fun c => c.mAllSucceeded) = some (flagOf ls (ls.length - 1))) := by
  obtain ⟨f, rfl⟩ : ∃ f, fuel = f + 4 := ⟨fuel - 4, by omega⟩
  have hid : (queueOf ls).1 = ls.length := by rw [queueOf_eq]
  obtain ⟨j, hj, hstop, hok, hjk, hsched, hq, hrun⟩ := queue_final ls f hN
  obtain ⟨g1, _, g3⟩ := queue_stop hq f hj hstop
  rw [hrun, hid, g3]
  refine ⟨?_, ?_⟩
  · intro a ha b hb
    by_cases h1 : j + 1 = ls.length
    · simp [h1] at ha hb
      rw [ha, hb]
    · simp [h1] at ha hb
      rw [ha, hb]
  · intro hall
    have hjn : j + 1 = ls.length := by
      rcases hstop with h | h
      · exact h
      · by_contra hne
        have := hall j (by omega)
        rw [h] at this
        cases this
    have hj' : ls.length - 1 = j := by omega
    rw [hj']
    refine ⟨by simp [hjn], ?_⟩
    unfold compositeOf
    rw [g1.comp]
    rfl

/-- Witness for C26: the queue over three succeeding children. -/
theorem queue_flags_agree_witness :
    emissions (queueOf okLeaves).1 (queueRun 4 okLeaves (queueSchedule okLeaves)).log =
      [flagOf okLeaves (okLeaves.length - 1), flagOf okLeaves (okLeaves.length - 1)] :=
  ((queue_flags_agree okLeaves 4 (by decide) (by decide)).2
    (fun i hi => (by decide : ∀ i, i < okLeaves.length → flagOf okLeaves i = true) i
      (Nat.lt_of_succ_lt hi))).1

end Async

namespace Foo

theorem copy_if_eq {α : Type} (input out : List α) (pred : α → Bool) :
    copy_if input out pred = out ++ input.filter pred := by
  induction input generalizing out with
  | nil => simp [copy_if]
  | cons x xs ih =>
    unfold copy_if at ih ⊢
    rw [List.foldl_cons, ih]
    by_cases h : pred x = true
    · simp [h, List.filter_cons]
    · simp [h, List.filter_cons]

theorem std_transform_eq {α β : Type} (input : List α) (out : List β) (op : α → β) :
    std_transform input out op = out ++ input.map op := by
  induction input generalizing out with
  | nil => simp [std_transform]
  | cons x xs ih =>
    unfold std_transform at ih ⊢
    rw [List.foldl_cons, ih]
    simp

theorem std_find_if_le {α : Type} (xs : List α) (pred : α → Bool) :
    std_find_if xs pred ≤ xs.length := by
  induction xs with
  | nil => simp [std_find_if]
  | cons x xs ih =>
    unfold std_find_if
    split
    · simp
    · simp; omega

theorem std_find_if_before {α : Type} (xs : List α) (pred : α → Bool) :
    ∀ j, j < std_find_if xs pred → ∀ x, xs[j]? = some x → pred x = false := by
  induction xs with
  | nil => intro j hj; simp [std_find_if] at hj
  | cons y ys ih =>
    intro j hj x hx
    unfold std_find_if at hj
    by_cases hy : pred y = true
    · simp [hy] at hj
    · have hf : pred y = false := by simpa using hy
      simp only [hf, Bool.false_eq_true, if_false] at hj
      cases j with
      | zero =>
        simp at hx
        subst hx
        simpa using hy
      | succ j =>
        simp at hx
        exact ih j (by omega) x hx

theorem std_find_if_at {α : Type} (xs : List α) (pred : α → Bool)
    (h : std_find_if xs pred < xs.length) :
    ∃ x, xs[std_find_if xs pred]? = some x ∧ pred x = true := by
  induction xs with
  | nil => simp at h
  | cons y ys ih =>
    unfold std_find_if at h ⊢
    by_cases hy : pred y = true
    · simp [hy]
    · have hf : pred y = false := by simpa using hy
      simp only [hf, Bool.false_eq_true, if_false, List.length_cons] at h ⊢
      obtain ⟨x, hx, hp⟩ := ih (by omega)
      exact ⟨x, by simpa using hx, hp⟩

/-- C18: `filtered` returns exactly the elements of the container that satisfy
the predicate, with their multiplicity and in their original relative order
(it equals the list filter); its size is the number of such elements;
`filteredAs` returns the same elements. -/
theorem filtered_spec {α : Type} (container : List α) (filter : α → Bool) :
    filtered container filter = container.filter filter ∧
    filteredAs container filter = container.filter filter ∧
    (filtered container filter).length = container.countP filter ∧
    (filtered container filter).Sublist container ∧
    (∀ x, x ∈ filtered container filter ↔ x ∈ container ∧ filter x = true) := by
  have h : filtered container filter = container.filter filter := by
    simp [filtered, copy_if_eq]
  refine ⟨h, by rw [filteredAs, h], ?_, ?_, ?_⟩
  · rw [h, List.countP_eq_length_filter]
  · rw [h]
    exact List.filter_sublist container
  · intro x
    rw [h, List.mem_filter]

/-- C19: `transformed` (both container kinds) and `transformedAs` (both
branches) return a container of the same length as the input whose i-th element
is the transformer applied to the i-th input element (the list map). -/
theorem transformed_spec {α β : Type} (input : List α) (transformer : α → β)
    (same : α → α) (isTemplate : Bool) :
    transformed input transformer = input.map transformer ∧
    transformed_plain input same = input.map same ∧
    transformedAs isTemplate input transformer = input.map transformer ∧
    (transformed input transformer).length = input.length ∧
    (transformedAs isTemplate input transformer).length = input.length ∧
    (∀ i : Nat, (transformed input transformer)[i]? = (input[i]?).map transformer) ∧
    (∀ i : Nat, (transformedAs isTemplate input transformer)[i]? =
      (input[i]?).map transformer) := by
  have h1 : transformed input transformer = input.map transformer := by
    simp [transformed, transformed_for_container_templates, transformed_for_containers,
      std_transform_eq]
  have h2 : transformedAs isTemplate input transformer = input.map transformer := by
    cases isTemplate <;>
      simp [transformedAs, transformed_for_container_templates, transformed_for_containers,
        std_transform_eq]
  refine ⟨h1, ?_, h2, ?_, ?_, ?_, ?_⟩
  · simp [transformed_plain, transformed_for_containers, std_transform_eq]
  · rw [h1, List.length_map]
  · rw [h2, List.length_map]
  · intro i
    rw [h1, List.getElem?_map]
  · intro i
    rw [h2, List.getElem?_map]

theorem find_some_iff {α β γ : Type} (eq : β → γ → Bool) (cs : List α) (s : α → β) (v : γ)
    (e : α) (h : find eq cs s v = some e) :
    ∃ i : Nat, cs[i]? = some e ∧ eq (s e) v = true ∧
      ∀ j : Nat, j < i → ∀ x, cs[j]? = some x → eq (s x) v = false := by
  unfold find at h
  simp only at h
  have hle := std_find_if_le cs (fun element => eq (s element) v)
  by_cases hend : std_find_if cs (fun element => eq (s element) v) = cs.length
  · simp [hend] at h
  · simp only [ne_eq, hend, not_false_eq_true, if_true] at h
    obtain ⟨x, hx, hp⟩ := std_find_if_at cs (fun element => eq (s element) v) (by omega)
    rw [hx] at h
    cases h
    exact ⟨_, hx, hp, std_find_if_before cs (fun element => eq (s element) v)⟩

/-- C20: the heterogeneous `find` returns an empty optional exactly when no
element has the selected property equal to the value; otherwise it returns the
element at the first position whose property equals the value; on a sub-range
starting at position `n` the returned element sits at a position `i >= n` of the
underlying container, and no position in `n .. i-1` matches. -/
theorem find_first_match {α β γ : Type} (eq : β → γ → Bool) (cs : List α) (s : α → β)
    (v : γ) :
    (find eq cs s v = none ↔ ∀ e ∈ cs, eq (s e) v = false) ∧
    (∀ e, find eq cs s v = some e →
      ∃ i : Nat, cs[i]? = some e ∧ eq (s e) v = true ∧
        ∀ j : Nat, j < i → ∀ x, cs[j]? = some x → eq (s x) v = false) ∧
    (∀ (n : Nat) (e : α), find eq (subrange cs n) s v = some e →
      ∃ i : Nat, n ≤ i ∧ cs[i]? = some e ∧ eq (s e) v = true ∧
        ∀ j : Nat, n ≤ j → j < i → ∀ x, cs[j]? = some x → eq (s x) v = false) := by
  refine ⟨?_, fun e h => find_some_iff eq cs s v e h, ?_⟩
  · constructor
    · intro h e he
      obtain ⟨i, hi, hie⟩ := List.mem_iff_getElem.mp he
      have hle := std_find_if_le cs (fun element => eq (s element) v)
      by_cases hend : std_find_if cs (fun element => eq (s element) v) = cs.length
      · exact std_find_if_before cs (fun element => eq (s element) v) i (by omega) e
          (by rw [List.getElem?_eq_getElem hi, hie])
      · obtain ⟨x, hx, _⟩ := std_find_if_at cs (fun element => eq (s element) v) (by omega)
        unfold find at h
        simp [hend, hx] at h
    · intro h
      cases hf : find eq cs s v with
      | none => rfl
      | some e =>
        obtain ⟨i, hi, hp, _⟩ := find_some_iff eq cs s v e hf
        have he : e ∈ cs := by
          rw [List.mem_iff_getElem?]
          exact ⟨i, hi⟩
        rw [h e he] at hp
        cases hp
  · intro n e h
    obtain ⟨i, hi, hp, hb⟩ := find_some_iff eq (subrange cs n) s v e h
    unfold subrange at hi hb
    refine ⟨n + i, by omega, ?_, hp, ?_⟩
    · rw [← hi, List.getElem?_drop]
    · intro j hnj hji x hx
      refine hb (j - n) (by omega) x ?_
      rw [List.getElem?_drop]
      have : n + (j - n) = j := by omega
      rw [this]
      exact hx

theorem find_none_iff {α β γ : Type} (eq : β → γ → Bool) (cs : List α) (s : α → β) (v : γ) :
    find eq cs s v = none ↔ ∀ e ∈ cs, eq (s e) v = false := by
  constructor
  · intro h e he
    obtain ⟨i, hi, hie⟩ := List.mem_iff_getElem.mp he
    have hle := std_find_if_le cs (fun element => eq (s element) v)
    by_cases hend : std_find_if cs (fun element => eq (s element) v) = cs.length
    · exact std_find_if_before cs (fun element => eq (s element) v) i (by omega) e
        (by rw [List.getElem?_eq_getElem hi, hie])
    · obtain ⟨x, hx, _⟩ := std_find_if_at cs (fun element => eq (s element) v) (by omega)
      unfold find at h
      simp [hend, hx] at h
  · intro h
    cases hf : find eq cs s v with
    | none => rfl
    | some e =>
      obtain ⟨i, hi, hp, _⟩ := find_some_iff eq cs s v e hf
      have he : e ∈ cs := by
        rw [List.mem_iff_getElem?]
        exact ⟨i, hi⟩
      rw [h e he] at hp
      cases hp

theorem std_find_eq {α γ : Type} (eq : α → γ → Bool) (xs : List α) (v : γ) :
    std_find eq xs v = std_find_if xs (fun e => eq e v) := by
  induction xs with
  | nil => rfl
  | cons x xs ih => simp [std_find, std_find_if, ih]

theorem findValue_eq {α γ : Type} (eq : α → γ → Bool) (xs : List α) (v : γ) :
    findValue eq xs v = find eq xs id v := by
  simp [findValue, find, std_find_eq]

theorem chained_snoc {α γ β : Type} (selectors : Selectors α γ) (last : γ → β) (x : α) :
    chained (selectors.snoc last) x = last (chained selectors x) := by
  induction selectors with
  | one s => rfl
  | more s rest ih => exact ih last (s x)

/-- C21: `chained` composes selectors left to right: one selector is the
selector itself, two and three selectors apply in the order given, a pack hands
the value selected by its first selector to the rest, appending a selector at
the end of any pack applies it last; and `find` with a chained selector returns
the first element whose chained property equals the value (none exactly when
there is no such element). -/
theorem chained_left_to_right {α β γ δ ε : Type} (s1 : α → β) (s2 : β → γ) (s3 : γ → δ)
    (rest : Selectors β γ) (selectors : Selectors α γ) (last : γ → δ) (x : α)
    (eq : γ → ε → Bool) (cs : List α) (v : ε) :
    chained (.one s1) x = s1 x ∧
    chained (.more s1 (.one s2)) x = s2 (s1 x) ∧
    chained (.more s1 (.more s2 (.one s3))) x = s3 (s2 (s1 x)) ∧
    chained (.more s1 rest) x = chained rest (s1 x) ∧
    chained (selectors.snoc last) x = last (chained selectors x) ∧
    (find eq cs (chained selectors) v = none ↔
      ∀ e ∈ cs, eq (chained selectors e) v = false) ∧
    (∀ e, find eq cs (chained selectors) v = some e →
      ∃ i : Nat, cs[i]? = some e ∧ eq (chained selectors e) v = true ∧
        ∀ j : Nat, j < i → ∀ y, cs[j]? = some y → eq (chained selectors y) v = false) :=
  ⟨rfl, rfl, rfl, rfl, chained_snoc selectors last x,
    find_none_iff eq cs (chained selectors) v,
    fun e h => find_some_iff eq cs (chained selectors) v e h⟩

/-- C22: the value overload of `find` returns an empty optional exactly when no
element of the container equals the value, in particular on an empty container;
otherwise it holds the element at the first position that equals the value. -/
theorem find_value_spec {α γ : Type} (eq : α → γ → Bool) (cs : List α) (v : γ) :
    (findValue eq cs v = none ↔ ∀ e ∈ cs, eq e v = false) ∧
    findValue eq ([] : List α) v = none ∧
    (∀ e, findValue eq cs v = some e →
      ∃ i : Nat, cs[i]? = some e ∧ eq e v = true ∧
        ∀ j : Nat, j < i → ∀ y, cs[j]? = some y → eq y v = false) := by
  refine ⟨?_, rfl, ?_⟩
  · rw [findValue_eq]
    exact find_none_iff eq cs id v
  · intro e h
    rw [findValue_eq] at h
    exact find_some_iff eq cs id v e h

end Foo

namespace GenericModel

/-- Counterexample for C27: with a setter registered under column `-1`,
`setData` on row 0, column `-1` with `EditRole` returns `true` and changes the
row. -/
theorem setData_negative_column :
    (⟨0, -1⟩ : QModelIndex).column < 0 ∧
    (setData negativeColumnModel ⟨0, -1⟩ 5 EditRole).1 = true ∧
    (setData negativeColumnModel ⟨0, -1⟩ 5 EditRole).2.mData = [5] := by
  decide

theorem setData_guard {U V : Type} (m : Model U V) (index : QModelIndex) (role : Int) :
    (index.row < 0 || index.row ≥ rowCount m || index.column ≥ columnCount m
      || EditRole ≠ role) = false ↔
    (0 ≤ index.row ∧ index.row < rowCount m ∧ index.column < m.COLUMN_COUNT ∧
      role = EditRole) := by
  simp only [Bool.or_eq_false_iff, decide_eq_false_iff_not, columnCount, ne_eq,
    Decidable.not_not]
  constructor
  · rintro ⟨⟨⟨h1, h2⟩, h3⟩, h4⟩
    exact ⟨by omega, by omega, by omega, h4.symm⟩
  · rintro ⟨h1, h2, h3, h4⟩
    exact ⟨⟨⟨by omega, by omega⟩, by omega⟩, h4.symm⟩

/-- C27 (amended): `setData` returns `true` exactly when
`0 <= row < rowCount()`, `column < COLUMN_COUNT`, the role is `EditRole` and a
setter is registered for the column (a negative column is rejected only by the
lookup); when it returns `false` the model is unchanged; when it returns `true`
the row at `index.row()` is replaced by what the setter makes of it, every other
row, the number of rows and the setters are unchanged. -/
theorem setData_spec {U V : Type} (m : Model U V) (index : QModelIndex) (value : V)
    (role : Int) :
    ((setData m index value role).1 = true ↔
      (0 ≤ index.row ∧ index.row < rowCount m ∧ index.column < m.COLUMN_COUNT ∧
        role = EditRole ∧ (m.mSetters index.column).isSome = true)) ∧
    ((setData m index value role).1 = false →
      (setData m index value role).2.mData = m.mData) ∧
    ((setData m index value role).1 = true →
      ∃ setter r, m.mSetters index.column = some setter ∧
        m.mData[index.row.toNat]? = some r ∧
        (setData m index value role).2.mData =
          m.mData.set index.row.toNat (setter r value)) ∧
    (∀ i : Nat, i ≠ index.row.toNat →
      (setData m index value role).2.mData[i]? = m.mData[i]?) ∧
    (setData m index value role).2.mData.length = m.mData.length ∧
    (setData m index value role).2.COLUMN_COUNT = m.COLUMN_COUNT := by
  have hg := setData_guard m index role
  by_cases hguard : (index.row < 0 || index.row ≥ rowCount m || index.column ≥ columnCount m
      || EditRole ≠ role) = true
  · have hno : ¬ (0 ≤ index.row ∧ index.row < rowCount m ∧ index.column < m.COLUMN_COUNT ∧
        role = EditRole) := by
      intro h
      rw [hg.mpr h] at hguard
      cases hguard
    have hs : setData m index value role = (false, m) := by
      unfold setData
      rw [if_pos hguard]
    rw [hs]
    refine ⟨?_, fun _ => rfl, ?_, fun _ _ => rfl, rfl, rfl⟩
    · constructor
      · intro h
        cases h
      · rintro ⟨h1, h2, h3, h4, _⟩
        exact absurd ⟨h1, h2, h3, h4⟩ hno
    · intro h
      cases h
  · have hguard' : (index.row < 0 || index.row ≥ rowCount m || index.column ≥ columnCount m
        || EditRole ≠ role) = false := by simpa using hguard
    obtain ⟨h1, h2, h3, h4⟩ := hg.mp hguard'
    have hlt : index.row.toNat < m.mData.length := by
      unfold rowCount at h2
      omega
    cases hset : m.mSetters index.column with
    | none =>
      have hs : setData m index value role = (false, m) := by
        unfold setData
        rw [if_neg hguard, hset]
      rw [hs]
      refine ⟨?_, fun _ => rfl, ?_, fun _ _ => rfl, rfl, rfl⟩
      · constructor
        · intro h
          cases h
        · rintro ⟨_, _, _, _, h5⟩
          cases h5
      · intro h
        cases h
    | some setter =>
      obtain ⟨r, hr⟩ : ∃ r, m.mData[index.row.toNat]? = some r :=
        ⟨_, List.getElem?_eq_getElem hlt⟩
      have hs : setData m index value role =
          (true, { m with mData := m.mData.set index.row.toNat (setter r value) }) := by
        unfold setData
        rw [if_neg hguard, hset]
        simp only [hr]
      rw [hs]
      refine ⟨?_, ?_, ?_, ?_, ?_, rfl⟩
      · constructor
        · intro _
          exact ⟨h1, h2, h3, h4, rfl⟩
        · intro _
          rfl
      · intro h
        cases h
      · intro _
        exact ⟨setter, _, rfl, hr, rfl⟩
      · intro i hi
        simp only [List.getElem?_set]
        have : ¬ index.row.toNat = i := fun e => hi e.symm
        simp [this]
      · simp

theorem vecInsert_nat {U : Type} (v : List U) (r : Nat) (x : U) (hr : r ≤ v.length) :
    vecInsert v (r : Int) x = some (v.take r ++ x :: v.drop r) := by
  unfold vecInsert
  have : (0 : Int) ≤ (r : Int) ∧ (r : Int) ≤ (v.length : Int) := ⟨by omega, by omega⟩
  simp [this]

theorem insertLoop_nat {U : Type} (dflt : U) (n r : Nat) (v : List U) (hr : r ≤ v.length) :
    insertLoop dflt n (r : Int) v =
      some (v.take r ++ List.replicate n dflt ++ v.drop r) := by
  induction n generalizing v with
  | zero => simp [insertLoop]
  | succ n ih =>
    have hlen : (v.take r).length = r := by simp [hr]
    have hr' : r ≤ (v.take r ++ dflt :: v.drop r).length := by
      simp
      omega
    have htake : (v.take r ++ dflt :: v.drop r).take r = v.take r := by
      rw [List.take_append_of_le_length (by omega)]
      rw [List.take_take]
      simp
    have hdrop : (v.take r ++ dflt :: v.drop r).drop r = dflt :: v.drop r := by
      rw [List.drop_append_of_le_length (by omega)]
      rw [List.drop_eq_nil_of_le (by omega)]
      rfl
    unfold insertLoop
    rw [vecInsert_nat v r dflt hr]
    simp only
    rw [ih _ hr', htake, hdrop, List.replicate_succ']
    simp

/-- C28: for rows `v`, `0 <= row <= size` and `count > 0`, both `insertRows`
implementations return `true` and the same rows: the rows before `row`, then
`count` default-constructed rows, then the rows from `row` on, so the number of
rows grows by `count`; for `count <= 0` both return `false` and leave the rows
unchanged. -/
theorem insertRows_agree {U : Type} (dflt : U) (v : List U) (row count : Int)
    (hrow : 0 ≤ row ∧ row ≤ v.length) :
    (0 < count →
      insertRows dflt v row count =
        some (true, v.take row.toNat ++ List.replicate count.toNat dflt ++
          v.drop row.toNat) ∧
      GenericModel2.insertRows dflt v row count = insertRows dflt v row count ∧
      ((v.take row.toNat ++ List.replicate count.toNat dflt ++ v.drop row.toNat).length
        : Int) = v.length + count) ∧
    (count ≤ 0 →
      insertRows dflt v row count = some (false, v) ∧
      GenericModel2.insertRows dflt v row count = some (false, v)) := by
  obtain ⟨h0, h1⟩ := hrow
  obtain ⟨r, rfl⟩ : ∃ r : Nat, row = (r : Int) := ⟨row.toNat, by omega⟩
  have hr : r ≤ v.length := by omega
  refine ⟨?_, ?_⟩
  · intro hc
    have hnc : ¬ count ≤ 0 := by omega
    have e1 : insertRows dflt v (r : Int) count =
        some (true, v.take r ++ List.replicate count.toNat dflt ++ v.drop r) := by
      unfold insertRows
      rw [if_neg hnc, insertLoop_nat dflt count.toNat r v hr]
    have e2 : GenericModel2.insertRows dflt v (r : Int) count =
        some (true, v.take r ++ List.replicate count.toNat dflt ++ v.drop r) := by
      unfold GenericModel2.insertRows GenericModel2.vecInsertN
      have : (0 : Int) ≤ (r : Int) ∧ (r : Int) ≤ (v.length : Int) := ⟨by omega, by omega⟩
      simp [hnc, this]
    refine ⟨by simpa using e1, by rw [e2, e1], ?_⟩
    simp
    omega
  · intro hc
    exact ⟨by simp [insertRows, hc], by simp [GenericModel2.insertRows, hc]⟩

/-- Witness for C28: two rows inserted at position 1 of three rows. -/
theorem insertRows_agree_witness :
    insertRows (0 : Int) [1, 2, 3] 1 2 = some (true, [1, 0, 0, 2, 3]) ∧
    GenericModel2.insertRows (0 : Int) [1, 2, 3] 1 2 = some (true, [1, 0, 0, 2, 3]) :=
  ⟨((insertRows_agree (0 : Int) [1, 2, 3] 1 2 (by decide)).1 (by decide)).1,
   (((insertRows_agree (0 : Int) [1, 2, 3] 1 2 (by decide)).1 (by decide)).2.1).trans
     ((insertRows_agree (0 : Int) [1, 2, 3] 1 2 (by decide)).1 (by decide)).1⟩

end GenericModel
